import Mathlib

/-!
Shallow embedding of the `maps` repository (src/avl_tree.rs, src/linked_list.rs,
src/hashmap.rs) and proofs about its specification claims.

Modelling conventions:
- Rust `Option<Box<Node>>` children are folded into the inductive tree type:
  `AvlTree.leaf` stands for an absent child / empty root, `AvlTree.node` for a
  present node.  `AvlTree::insert` (root absent case) and `Node::insert`
  (child absent case) therefore become the single `leaf` equation.
- `u64` hashes are modelled as `Nat`; the slot index `hash as usize & (cap - 1)`
  is `Nat.land hash (cap - 1)`, which agrees with the Rust computation because
  `cap - 1` only has bits below bit 64.
- the hash builder `S : BuildHasher` is modelled as the function `K → Nat` it
  denotes; it is carried in the map state and never changed by any operation,
  matching the deterministic per-map hashing of the source.
- mutation becomes explicit state passing: a Rust method `&mut self -> T`
  becomes a Lean function returning `State × T`.
-/

namespace Maps

/-- Binary tree of (hash, key, value) nodes; `leaf` is Rust's absent
`Option<Box<Node<K, V>>>` (and the absent root of `AvlTree`). -/
inductive AvlTree (K V : Type) where
  | leaf : AvlTree K V
  | node (hash : Nat) (key : K) (value : V) (left right : AvlTree K V) : AvlTree K V
deriving DecidableEq

variable {K V : Type} [DecidableEq K]

/-- `Node::new` -/
def AvlTree.newNode (hash : Nat) (key : K) (value : V) : AvlTree K V :=
  .node hash key value .leaf .leaf

/-- `AvlTree::insert` / `Node::insert`: replace the value when hash and key both
match, descend left on `hash < self.hash`, otherwise descend right; place a new
leaf when the child is absent.  (No rebalancing: the source's rebalancing check
is a TODO comment.) -/
def AvlTree.insert : AvlTree K V → Nat → K → V → AvlTree K V × Option V
  | .leaf, hash, key, value => (AvlTree.newNode hash key value, none)
  | .node sh sk sv l r, hash, key, value =>
    if sh = hash ∧ sk = key then
      (.node sh sk value l r, some sv)
    else if hash < sh then
      let p := AvlTree.insert l hash key value
      (.node sh sk sv p.1 r, p.2)
    else
      let p := AvlTree.insert r hash key value
      (.node sh sk sv l p.1, p.2)

/-- `AvlTree::get_key_value` / `Node::get_key_value`: same descent as insert. -/
def AvlTree.get_key_value : AvlTree K V → Nat → K → Option (K × V)
  | .leaf, _, _ => none
  | .node sh sk sv l r, hash, key =>
    if sh = hash ∧ sk = key then some (sk, sv)
    else if hash < sh then l.get_key_value hash key
    else r.get_key_value hash key

/-- `Node::remove_entry` is stubbed in the source: it ignores its arguments and
returns `(None, false)`, mutating nothing.  The `Bool` says "caller must delete
this node"; the stub never sets it. -/
def nodeRemoveEntry (t : AvlTree K V) (_hash : Nat) (_key : K) :
    AvlTree K V × Option (K × V) × Bool :=
  (t, none, false)

/-- `AvlTree::remove_entry`: absent root gives `None`; otherwise delegate to
`Node::remove_entry` and clear the root when the node asks to be deleted. -/
def AvlTree.remove_entry (t : AvlTree K V) (hash : Nat) (key : K) :
    AvlTree K V × Option (K × V) :=
  match t with
  | .leaf => (.leaf, none)
  | .node sh sk sv l r =>
    let p := nodeRemoveEntry (.node sh sk sv l r) hash key
    if p.2.2 then (.leaf, p.2.1) else (p.1, p.2.1)

/-- `AvlTree::is_empty`: the root is absent. -/
def AvlTree.is_empty : AvlTree K V → Bool
  | .leaf => true
  | .node _ _ _ _ _ => false

/-- Number of nodes of a tree. -/
def AvlTree.size : AvlTree K V → Nat
  | .leaf => 0
  | .node _ _ _ l r => 1 + l.size + r.size

/-- Height of a tree (leaf = 0). -/
def AvlTree.height : AvlTree K V → Nat
  | .leaf => 0
  | .node _ _ _ l r => 1 + max l.height r.height

/-- AVL balance predicate: at every node the two subtree heights differ by at
most 1. -/
def AvlTree.balancedb : AvlTree K V → Bool
  | .leaf => true
  | .node _ _ _ l r =>
    (l.height ≤ r.height + 1 && r.height ≤ l.height + 1) && l.balancedb && r.balancedb

/-- In-order list of (hash, key, value) triples of a tree. -/
def AvlTree.inorder : AvlTree K V → List (Nat × K × V)
  | .leaf => []
  | .node h k v l r => l.inorder ++ (h, k, v) :: r.inorder

/-- In-order list of (key, value) pairs. -/
def AvlTree.inorderKV (t : AvlTree K V) : List (K × V) :=
  t.inorder.map (fun x => (x.2.1, x.2.2))

/-- `add_left` of the tree `IntoIter`: push a node (with its left child
detached) and keep descending into the left child.  A stack element holds the
fields of a pushed node: its hash, key, value and (still attached) right
child. -/
def addLeft (acc : List (Nat × K × V × AvlTree K V)) :
    AvlTree K V → List (Nat × K × V × AvlTree K V)
  | .leaf => acc
  | .node h k v l r => addLeft ((h, k, v, r) :: acc) l

/-- Total tree size stored in an iterator stack (for termination). -/
def stackSize : List (Nat × K × V × AvlTree K V) → Nat
  | [] => 0
  | (_, _, _, r) :: rest => 1 + r.size + stackSize rest

omit [DecidableEq K] in
theorem stackSize_addLeft (t : AvlTree K V) :
    ∀ s, stackSize (addLeft s t) = t.size + stackSize s := by
  induction t with
  | leaf => intro s; simp [addLeft, AvlTree.size]
  | node h k v l r ihl ihr =>
    intro s
    simp only [addLeft, ihl, stackSize, AvlTree.size]
    omega

/-- Run the tree `IntoIter` to exhaustion: pop a stack entry, emit its key and
value, push the left spine of its right child (`Iterator::next`). -/
def drainStack : List (Nat × K × V × AvlTree K V) → List (K × V)
  | [] => []
  | (_, k, v, r) :: rest => (k, v) :: drainStack (addLeft rest r)
termination_by s => stackSize s
decreasing_by
  simp only [stackSize_addLeft, stackSize]
  omega

/-- `IntoIter::new` followed by full iteration: the by-value (key, value)
sequence a tree yields in `for (k, v) in tree`. -/
def AvlTree.intoIter (t : AvlTree K V) : List (K × V) :=
  drainStack (addLeft [] t)

/-- `LinkedList<K, V>` is its head-first list of (key, value) nodes. -/
abbrev LinkedList (K V : Type) : Type := List (K × V)

/-- Scan of `LinkedList::insert`: find a node with an equal key, swap in the
new value, return the updated list and the old value; `none` if no node
matches. -/
def llScan : List (K × V) → K → V → Option (List (K × V) × V)
  | [], _, _ => none
  | (k', v') :: rest, key, value =>
    if k' = key then some ((k', value) :: rest, v')
    else
      match llScan rest key value with
      | some (rest2, old) => some ((k', v') :: rest2, old)
      | none => none

/-- `LinkedList::insert`: replace in place when the key exists, otherwise push
a new node at the head. -/
def LinkedList.insert (l : LinkedList K V) (key : K) (value : V) :
    LinkedList K V × Option V :=
  match llScan l key value with
  | some (l2, old) => (l2, some old)
  | none => ((key, value) :: l, none)

/-- `LinkedList::get_key_value`: first node with an equal key. -/
def LinkedList.get_key_value : LinkedList K V → K → Option (K × V)
  | [], _ => none
  | (k', v') :: rest, key =>
    if k' = key then some (k', v') else LinkedList.get_key_value rest key

/-- `LinkedList::remove_entry`: detach and return the first matching node,
keeping the rest of the chain in order. -/
def LinkedList.remove_entry : LinkedList K V → K → LinkedList K V × Option (K × V)
  | [], _ => ([], none)
  | (k', v') :: rest, key =>
    if k' = key then (rest, some (k', v'))
    else
      let p := LinkedList.remove_entry rest key
      ((k', v') :: p.1, p.2)

/-- `LinkedList::is_empty`. -/
def LinkedList.is_empty (l : LinkedList K V) : Bool :=
  match l with
  | [] => true
  | _ :: _ => false

/-- `LinkedList`'s `IntoIter` yields the nodes head-first: the list itself. -/
def LinkedList.intoIter (l : LinkedList K V) : List (K × V) := l

/-- The `Entry<K, V>` slot sum type of hashmap.rs. -/
inductive Entry (K V : Type) where
  | ListEntry (list : LinkedList K V)
  | TreeEntry (tree : AvlTree K V)
  | Empty
deriving DecidableEq

/-- Is the slot a `ListEntry`? -/
def Entry.isList : Entry K V → Bool
  | .ListEntry _ => true
  | _ => false

/-- Is the slot a `TreeEntry`? -/
def Entry.isTree : Entry K V → Bool
  | .TreeEntry _ => true
  | _ => false

/-- The (key, value) pairs stored in one slot. -/
def Entry.entryKV : Entry K V → List (K × V)
  | .ListEntry l => l
  | .TreeEntry t => t.inorderKV
  | .Empty => []

/-- `HashMap<K, V, S>`: the boxed slot array, the hash builder (modelled as the
hash function it denotes) and the entry count. -/
structure HashMap (K V : Type) where
  table : List (Entry K V)
  hash_fn : K → Nat
  len : Nat

namespace HashMap

/-- `HashMap::hash`: hash a key with the map's hash builder. -/
def hash (m : HashMap K V) (key : K) : Nat := m.hash_fn key

/-- `HashMap::hash_index`: `hash as usize & (self.table.len() - 1)`. -/
def hash_index (m : HashMap K V) (hash : Nat) : Nat :=
  hash &&& (m.table.length - 1)

/-- `HashMap::with_capacity_and_hasher`'s sizing loop:
`let mut capacity = 1; while capacity < cap { capacity <<= 1; }`.
The `capacity ≠ 0` guard only makes termination explicit; the loop is entered
with `capacity = 1` and capacity never returns to 0. -/
def grow (cap capacity : Nat) : Nat :=
  if capacity < cap ∧ capacity ≠ 0 then grow cap (capacity <<< 1) else capacity
termination_by cap - capacity
decreasing_by
  rename_i h
  simp only [Nat.shiftLeft_eq, Nat.pow_one]
  omega

/-- `HashMap::with_capacity_and_hasher`: round the capacity hint up to a power
of two (minimum 1), allocate that many `Empty` slots, zero count. -/
def with_capacity_and_hasher (cap : Nat) (hash_builder : K → Nat) : HashMap K V :=
  let capacity := grow cap 1
  { table := List.replicate capacity Entry.Empty
    hash_fn := hash_builder
    len := 0 }

/-- `HashMap::with_hasher` (the default capacity is 16). -/
def with_hasher (hash_builder : K → Nat) : HashMap K V :=
  with_capacity_and_hasher 16 hash_builder

/-- `HashMap::is_empty`. -/
def is_empty (m : HashMap K V) : Bool := m.len == 0

/-- `HashMap::insert_into_table`: hash, index, dispatch on the slot variant.
An `Empty` slot receives a fresh `AvlTree` holding the new entry. -/
def insert_into_table (m : HashMap K V) (key : K) (value : V) :
    HashMap K V × Option V :=
  let hash := m.hash key
  let index := m.hash_index hash
  match m.table.getD index Entry.Empty with
  | .ListEntry list =>
    let p := list.insert key value
    ({ m with table := m.table.set index (.ListEntry p.1) }, p.2)
  | .TreeEntry tree =>
    let p := tree.insert hash key value
    ({ m with table := m.table.set index (.TreeEntry p.1) }, p.2)
  | .Empty =>
    let entry := (AvlTree.leaf : AvlTree K V).insert hash key value
    ({ m with table := m.table.set index (.TreeEntry entry.1) }, none)

/-- The reinsertion loop body of `HashMap::resize`: reinsert drained (key,
value) pairs through `insert_into_table`, ignoring its return value (and
performing no load-factor check). -/
def reinsertList (m : HashMap K V) : List (K × V) → HashMap K V
  | [] => m
  | (k, v) :: rest => reinsertList (m.insert_into_table k v).1 rest

/-- `HashMap::resize`: double the capacity, swap in an all-`Empty` table, and
drain every old slot's bucket (by-value iteration) back through
`insert_into_table`. -/
def resize (m : HashMap K V) : HashMap K V :=
  let new_cap := m.table.length <<< 1
  let old_table := m.table
  let start := { m with table := List.replicate new_cap Entry.Empty }
  old_table.foldl
    (fun acc entry =>
      match entry with
      | .ListEntry list => reinsertList acc list.intoIter
      | .TreeEntry tree => reinsertList acc tree.intoIter
      | .Empty => acc)
    start

/-- `HashMap::insert`: delegate to `insert_into_table`, bump the count when the
key is new, then resize when `len ≥ (0.75 * capacity as f64) as usize`.  For a
power-of-two capacity the float product is exact and the cast truncates, so the
threshold is `3 * capacity / 4` in integer division. -/
def insert (m : HashMap K V) (key : K) (value : V) : HashMap K V × Option V :=
  let p := m.insert_into_table key value
  let m2 := if p.2.isNone then { p.1 with len := p.1.len + 1 } else p.1
  let m3 := if m2.len ≥ 3 * m2.table.length / 4 then m2.resize else m2
  (m3, p.2)

/-- `HashMap::get_key_value`: hash, index, dispatch; `Empty` misses. -/
def get_key_value (m : HashMap K V) (key : K) : Option (K × V) :=
  let hash := m.hash key
  let index := m.hash_index hash
  match m.table.getD index Entry.Empty with
  | .ListEntry list => list.get_key_value key
  | .TreeEntry tree => tree.get_key_value hash key
  | .Empty => none

/-- `HashMap::get`. -/
def get (m : HashMap K V) (key : K) : Option V :=
  (m.get_key_value key).map (fun p => p.2)

/-- `HashMap::contains_key`. -/
def contains_key (m : HashMap K V) (key : K) : Bool :=
  (m.get_key_value key).isSome

/-- `HashMap::remove_entry`: dispatch to the slot's bucket removal, decrement
the count on a hit, and reset the slot to `Empty` when its bucket emptied. -/
def remove_entry (m : HashMap K V) (key : K) : HashMap K V × Option (K × V) :=
  let hash := m.hash key
  let index := m.hash_index hash
  match m.table.getD index Entry.Empty with
  | .ListEntry list =>
    let p := list.remove_entry key
    let m1 := { m with table := m.table.set index (.ListEntry p.1) }
    let m2 := if p.2.isSome then { m1 with len := m1.len - 1 } else m1
    let m3 :=
      if p.1.is_empty then { m2 with table := m2.table.set index .Empty } else m2
    (m3, p.2)
  | .TreeEntry tree =>
    let p := tree.remove_entry hash key
    let m1 := { m with table := m.table.set index (.TreeEntry p.1) }
    let m2 := if p.2.isSome then { m1 with len := m1.len - 1 } else m1
    let m3 :=
      if p.1.is_empty then { m2 with table := m2.table.set index .Empty } else m2
    (m3, p.2)
  | .Empty => (m, none)

/-- `HashMap::remove`. -/
def remove (m : HashMap K V) (key : K) : HashMap K V × Option V :=
  let p := m.remove_entry key
  (p.1, p.2.map (fun e => e.2))

end HashMap

/-- The mutating operations of the public API. -/
inductive Op (K V : Type) where
  | insert (key : K) (value : V)
  | remove (key : K)

/-- Apply one operation, keeping the resulting state. -/
def applyOp (m : HashMap K V) : Op K V → HashMap K V
  | .insert k v => (m.insert k v).1
  | .remove k => (m.remove k).1

/-- Run a sequence of operations. -/
def runOps (m : HashMap K V) (ops : List (Op K V)) : HashMap K V :=
  ops.foldl applyOp m

/-- A map state reachable from a constructor call by inserts and removes. -/
def Reachable (m : HashMap K V) : Prop :=
  ∃ (cap : Nat) (f : K → Nat) (ops : List (Op K V)),
    m = runOps (HashMap.with_capacity_and_hasher cap f) ops

/-- All (key, value) pairs stored across the slots of the table. -/
def mapEntriesKV (m : HashMap K V) : List (K × V) :=
  (m.table.map Entry.entryKV).flatten

/-! ### Small list helpers -/

theorem listGetD_set_self {α : Type} (l : List α) (i : Nat) (a d : α)
    (h : i < l.length) : (l.set i a).getD i d = a := by
  induction l generalizing i with
  | nil => simp at h
  | cons x xs ih =>
    cases i with
    | zero => rfl
    | succ j => exact ih j (by simpa using h)

theorem listGetD_set_ne {α : Type} (l : List α) (i j : Nat) (a d : α)
    (h : i ≠ j) : (l.set i a).getD j d = l.getD j d := by
  induction l generalizing i j with
  | nil => simp
  | cons x xs ih =>
    cases i with
    | zero => cases j with
      | zero => exact absurd rfl h
      | succ j' => rfl
    | succ i' => cases j with
      | zero => rfl
      | succ j' => exact ih i' j' (by omega)

theorem listSet_getD_self {α : Type} (l : List α) (i : Nat) (d : α)
    (h : i < l.length) : l.set i (l.getD i d) = l := by
  induction l generalizing i with
  | nil => simp at h
  | cons x xs ih =>
    cases i with
    | zero => rfl
    | succ j => simpa using ih j (by simpa using h)

theorem listSum_set (l : List Nat) (i : Nat) (a : Nat) (h : i < l.length) :
    (l.set i a).sum + l.getD i 0 = l.sum + a := by
  induction l generalizing i with
  | nil => simp at h
  | cons x xs ih =>
    cases i with
    | zero => simp [List.set, List.getD]; omega
    | succ j =>
      have := ih j (by simpa using h)
      simp only [List.set, List.sum_cons, List.getD_cons_succ]
      omega

theorem nodupMap_inj {α β : Type} (l : List α) (g : α → β)
    (hn : (l.map g).Nodup) :
    ∀ a ∈ l, ∀ b ∈ l, g a = g b → a = b := by
  induction l with
  | nil => intro a ha; simp at ha
  | cons x xs ih =>
    simp only [List.map_cons, List.nodup_cons] at hn
    intro a ha b hb hg
    rcases List.mem_cons.mp ha with rfl | ha' <;>
      rcases List.mem_cons.mp hb with rfl | hb'
    · rfl
    · exact absurd (hg ▸ List.mem_map_of_mem g hb') hn.1
    · exact absurd (hg ▸ List.mem_map_of_mem g ha') hn.1
    · exact ih hn.2 a ha' b hb' hg

theorem mem_flatten_map_getD {α β : Type} (l : List α) (f : α → List β)
    (d : α) (x : β) :
    x ∈ (l.map f).flatten ↔ ∃ i, i < l.length ∧ x ∈ f (l.getD i d) := by
  induction l with
  | nil => simp
  | cons y ys ih =>
    simp only [List.map_cons, List.flatten_cons, List.mem_append, ih]
    constructor
    · rintro (hx | ⟨i, hi, hx⟩)
      · exact ⟨0, by simp, hx⟩
      · exact ⟨i + 1, by simpa using hi, hx⟩
    · rintro ⟨i, hi, hx⟩
      cases i with
      | zero => exact Or.inl hx
      | succ j => exact Or.inr ⟨j, by simpa using hi, hx⟩

/-! ### Tree lemmas -/

theorem AvlTree.insert_ne_leaf (t : AvlTree K V) (h : Nat) (k : K) (v : V) :
    (t.insert h k v).1 ≠ .leaf := by
  cases t with
  | leaf => simp [insert, newNode]
  | node sh sk sv l r =>
    by_cases hc : sh = h ∧ sk = k
    · simp [insert, hc]
    · by_cases hlt : h < sh <;> simp [insert, hc, hlt]

theorem AvlTree.insert_ret (t : AvlTree K V) (h : Nat) (k : K) (v : V) :
    (t.insert h k v).2 = (t.get_key_value h k).map (fun p => p.2) := by
  induction t with
  | leaf => simp [insert, get_key_value]
  | node sh sk sv l r ihl ihr =>
    by_cases hc : sh = h ∧ sk = k
    · simp [insert, get_key_value, hc]
    · by_cases hlt : h < sh
      · simpa [insert, get_key_value, hc, hlt] using ihl
      · simpa [insert, get_key_value, hc, hlt] using ihr

theorem AvlTree.get_insert_self (t : AvlTree K V) (h : Nat) (k : K) (v : V) :
    (t.insert h k v).1.get_key_value h k = some (k, v) := by
  induction t with
  | leaf => simp [insert, newNode, get_key_value]
  | node sh sk sv l r ihl ihr =>
    by_cases hc : sh = h ∧ sk = k
    · simp [insert, hc, get_key_value, hc.2]
    · by_cases hlt : h < sh
      · simpa [insert, hc, hlt, get_key_value] using ihl
      · simpa [insert, hc, hlt, get_key_value] using ihr

theorem AvlTree.get_insert_ne (t : AvlTree K V) (h h' : Nat) (k k' : K) (v : V)
    (hne : ¬(h = h' ∧ k = k')) :
    (t.insert h k v).1.get_key_value h' k' = t.get_key_value h' k' := by
  induction t with
  | leaf =>
    have hc : ¬(h = h' ∧ k = k') := hne
    simp [insert, newNode, get_key_value, hc]
  | node sh sk sv l r ihl ihr =>
    by_cases hc : sh = h ∧ sk = k
    · simp [insert, hc, get_key_value, hne]
    · by_cases hlt : h < sh
      · by_cases hc' : sh = h' ∧ sk = k'
        · obtain ⟨rfl, rfl⟩ := hc'
          simp [insert, hc, hlt, get_key_value]
        · simp [insert, hc, hlt, get_key_value, hc', ihl]
      · by_cases hc' : sh = h' ∧ sk = k'
        · obtain ⟨rfl, rfl⟩ := hc'
          simp [insert, hc, hlt, get_key_value]
        · simp [insert, hc, hlt, get_key_value, hc', ihr]

theorem AvlTree.inorder_insert_of_ret_none (t : AvlTree K V) (h : Nat) (k : K)
    (v : V) (hr : (t.insert h k v).2 = none) :
    List.Perm (t.insert h k v).1.inorder ((h, k, v) :: t.inorder) := by
  induction t with
  | leaf => simp [insert, newNode, inorder]
  | node sh sk sv l r ihl ihr =>
    by_cases hc : sh = h ∧ sk = k
    · simp [insert, hc] at hr
    · by_cases hlt : h < sh
      · have hr' : (l.insert h k v).2 = none := by
          simpa [insert, hc, hlt] using hr
        have hperm := (ihl hr').append_right ((sh, sk, sv) :: r.inorder)
        simpa [insert, hc, hlt, inorder] using hperm
      · have hr' : (r.insert h k v).2 = none := by
          simpa [insert, hc, hlt] using hr
        have p1 :
            List.Perm (l.inorder ++ (sh, sk, sv) :: (r.insert h k v).1.inorder)
              (l.inorder ++ (sh, sk, sv) :: (h, k, v) :: r.inorder) :=
          ((ihr hr').cons (sh, sk, sv)).append_left l.inorder
        have p2 :
            List.Perm (l.inorder ++ (sh, sk, sv) :: (h, k, v) :: r.inorder)
              ((h, k, v) :: (l.inorder ++ (sh, sk, sv) :: r.inorder)) := by
          have := @List.perm_middle (Nat × K × V) (h, k, v)
            (l.inorder ++ [(sh, sk, sv)]) r.inorder
          simpa using this
        simpa [insert, hc, hlt, inorder] using p1.trans p2

theorem AvlTree.inorder_keys_insert_of_ret_some (t : AvlTree K V) (h : Nat)
    (k : K) (v : V) (w : V) (hr : (t.insert h k v).2 = some w) :
    (t.insert h k v).1.inorder.map (fun x => x.2.1) =
      t.inorder.map (fun x => x.2.1) := by
  induction t with
  | leaf => simp [insert] at hr
  | node sh sk sv l r ihl ihr =>
    by_cases hc : sh = h ∧ sk = k
    · simp [insert, hc, inorder]
    · by_cases hlt : h < sh
      · have hr' : (l.insert h k v).2 = some w := by
          simpa [insert, hc, hlt] using hr
        simp [insert, hc, hlt, inorder, ihl hr']
      · have hr' : (r.insert h k v).2 = some w := by
          simpa [insert, hc, hlt] using hr
        simp [insert, hc, hlt, inorder, ihr hr']

theorem AvlTree.mem_inorder_insert (t : AvlTree K V) (h : Nat) (k : K) (v : V)
    (x : Nat × K × V) (hx : x ∈ (t.insert h k v).1.inorder) :
    x ∈ t.inorder ∨ x = (h, k, v) := by
  induction t with
  | leaf =>
    right
    simpa [insert, newNode, inorder] using hx
  | node sh sk sv l r ihl ihr =>
    by_cases hc : sh = h ∧ sk = k
    · rcases (by simpa [insert, hc, inorder] using hx) with hl | hm | hrr
      · exact Or.inl (by simp [inorder, hl])
      · exact Or.inr (by simp [hm, hc.1, hc.2])
      · exact Or.inl (by simp [inorder, hrr])
    · by_cases hlt : h < sh
      · rcases (by simpa [insert, hc, hlt, inorder] using hx) with hl | hm | hrr
        · rcases ihl hl with h1 | h1
          · exact Or.inl (by simp [inorder, h1])
          · exact Or.inr h1
        · exact Or.inl (by simp [inorder, hm])
        · exact Or.inl (by simp [inorder, hrr])
      · rcases (by simpa [insert, hc, hlt, inorder] using hx) with hl | hm | hrr
        · exact Or.inl (by simp [inorder, hl])
        · exact Or.inl (by simp [inorder, hm])
        · rcases ihr hrr with h1 | h1
          · exact Or.inl (by simp [inorder, h1])
          · exact Or.inr h1

/-- The search-order invariant the insertion discipline maintains: hashes in
the left subtree are strictly below the node's hash, hashes in the right
subtree at least it ("objects with equal hash will always be put to the
right"). -/
def SearchInv : AvlTree K V → Prop
  | .leaf => True
  | .node h _ _ l r =>
    (∀ x ∈ l.inorder, x.1 < h) ∧ (∀ x ∈ r.inorder, h ≤ x.1) ∧
      SearchInv l ∧ SearchInv r

theorem AvlTree.insert_eq_match (sh h : Nat) (sk k : K) (sv v : V)
    (l r : AvlTree K V) (hc : sh = h ∧ sk = k) :
    (AvlTree.node sh sk sv l r).insert h k v = (.node sh sk v l r, some sv) := by
  simp [AvlTree.insert, hc]

theorem AvlTree.insert_eq_left (sh h : Nat) (sk k : K) (sv v : V)
    (l r : AvlTree K V) (hc : ¬(sh = h ∧ sk = k)) (hlt : h < sh) :
    (AvlTree.node sh sk sv l r).insert h k v =
      (.node sh sk sv (l.insert h k v).1 r, (l.insert h k v).2) := by
  simp [AvlTree.insert, hc, hlt]

theorem AvlTree.insert_eq_right (sh h : Nat) (sk k : K) (sv v : V)
    (l r : AvlTree K V) (hc : ¬(sh = h ∧ sk = k)) (hlt : ¬ h < sh) :
    (AvlTree.node sh sk sv l r).insert h k v =
      (.node sh sk sv l (r.insert h k v).1, (r.insert h k v).2) := by
  simp [AvlTree.insert, hc, hlt]

theorem searchInv_node (h : Nat) (k : K) (v : V) (l r : AvlTree K V) :
    SearchInv (AvlTree.node h k v l r) ↔
      (∀ x ∈ l.inorder, x.1 < h) ∧ (∀ x ∈ r.inorder, h ≤ x.1) ∧
        SearchInv l ∧ SearchInv r := Iff.rfl

theorem searchInv_insert (t : AvlTree K V) (h : Nat) (k : K) (v : V)
    (ht : SearchInv t) : SearchInv (t.insert h k v).1 := by
  induction t with
  | leaf =>
    rw [show (AvlTree.leaf : AvlTree K V).insert h k v =
      (AvlTree.newNode h k v, none) from rfl]
    rw [AvlTree.newNode, searchInv_node]
    simp [AvlTree.inorder, SearchInv]
  | node sh sk sv l r ihl ihr =>
    rw [searchInv_node] at ht
    obtain ⟨hbl, hbr, hl, hr⟩ := ht
    by_cases hc : sh = h ∧ sk = k
    · rw [AvlTree.insert_eq_match sh h sk k sv v l r hc]
      exact (searchInv_node sh sk v l r).mpr ⟨hbl, hbr, hl, hr⟩
    · by_cases hlt : h < sh
      · rw [AvlTree.insert_eq_left sh h sk k sv v l r hc hlt]
        refine (searchInv_node sh sk sv _ r).mpr ⟨?_, hbr, ihl hl, hr⟩
        intro x hx
        rcases AvlTree.mem_inorder_insert l h k v x hx with h1 | h1
        · exact hbl x h1
        · simpa [h1] using hlt
      · rw [AvlTree.insert_eq_right sh h sk k sv v l r hc hlt]
        refine (searchInv_node sh sk sv l _).mpr ⟨hbl, ?_, hl, ihr hr⟩
        intro x hx
        rcases AvlTree.mem_inorder_insert r h k v x hx with h1 | h1
        · exact hbr x h1
        · simpa [h1] using Nat.le_of_not_lt hlt

theorem get_of_mem_inorder (t : AvlTree K V) (h : Nat) (k : K) (v : V)
    (ht : SearchInv t) (hm : (h, k, v) ∈ t.inorder) :
    ∃ v', t.get_key_value h k = some (k, v') := by
  induction t with
  | leaf => simp [AvlTree.inorder] at hm
  | node sh sk sv l r ihl ihr =>
    obtain ⟨hbl, hbr, hl, hr⟩ := ht
    by_cases hc : sh = h ∧ sk = k
    · exact ⟨sv, by simp [AvlTree.get_key_value, hc, hc.2]⟩
    · rcases (by simpa [AvlTree.inorder] using hm) with hml | hmid | hmr
      · have hlt : h < sh := hbl _ hml
        obtain ⟨v', hv'⟩ := ihl hl hml
        exact ⟨v', by simp [AvlTree.get_key_value, hc, hlt, hv']⟩
      · exact absurd ⟨hmid.1.symm, hmid.2.1.symm⟩ hc
      · have hge : sh ≤ h := hbr _ hmr
        obtain ⟨v', hv'⟩ := ihr hr hmr
        exact ⟨v', by simp [AvlTree.get_key_value, hc, Nat.not_lt.mpr hge, hv']⟩

theorem mem_inorder_of_get (t : AvlTree K V) (h : Nat) (k : K)
    (p : K × V) (hg : t.get_key_value h k = some p) :
    p.1 = k ∧ (h, k, p.2) ∈ t.inorder := by
  induction t with
  | leaf => simp [AvlTree.get_key_value] at hg
  | node sh sk sv l r ihl ihr =>
    by_cases hc : sh = h ∧ sk = k
    · have hp0 : (sk, sv) = p := by simpa [AvlTree.get_key_value, hc] using hg
      have hp : p = (sk, sv) := hp0.symm
      refine ⟨by simp [hp, hc.2], ?_⟩
      simp [hp, AvlTree.inorder, hc.1, hc.2]
    · by_cases hlt : h < sh
      · have hg' : l.get_key_value h k = some p := by
          simpa [AvlTree.get_key_value, hc, hlt] using hg
        obtain ⟨h1, h2⟩ := ihl hg'
        exact ⟨h1, by simp [AvlTree.inorder, h2]⟩
      · have hg' : r.get_key_value h k = some p := by
          simpa [AvlTree.get_key_value, hc, hlt] using hg
        obtain ⟨h1, h2⟩ := ihr hg'
        exact ⟨h1, by simp [AvlTree.inorder, h2]⟩

theorem remove_entry_stub (t : AvlTree K V) (h : Nat) (k : K)
    (ht : t ≠ .leaf) : t.remove_entry h k = (t, none) := by
  cases t with
  | leaf => exact absurd rfl ht
  | node sh sk sv l r => rfl

theorem not_mem_keys_of_ret_none (t : AvlTree K V) (h : Nat) (k : K) (v : V)
    (ht : SearchInv t)
    (hkh : ∀ x ∈ t.inorder, x.2.1 = k → x.1 = h)
    (hr : (t.insert h k v).2 = none) :
    k ∉ t.inorder.map (fun x => x.2.1) := by
  intro hmem
  obtain ⟨x, hx, hxk⟩ := List.mem_map.mp hmem
  obtain ⟨xh, xk, xv⟩ := x
  simp only at hxk
  have hxh : xh = h := hkh _ hx hxk
  have hx2 : (h, k, xv) ∈ t.inorder := by rw [← hxh, ← hxk]; exact hx
  obtain ⟨v', hv'⟩ := get_of_mem_inorder t h k xv ht hx2
  rw [AvlTree.insert_ret, hv'] at hr
  simp at hr

theorem drainStack_addLeft (t : AvlTree K V) :
    ∀ s, drainStack (addLeft s t) = t.inorderKV ++ drainStack s := by
  induction t with
  | leaf => intro s; simp [addLeft, AvlTree.inorderKV, AvlTree.inorder]
  | node h k v l r ihl ihr =>
    intro s
    rw [addLeft, ihl, drainStack, ihr]
    simp [AvlTree.inorderKV, AvlTree.inorder]

theorem intoIter_eq_inorderKV (t : AvlTree K V) : t.intoIter = t.inorderKV := by
  rw [AvlTree.intoIter, drainStack_addLeft]
  simp [drainStack]

/-! ### Table invariant -/

/-- What holds of the slot at index `i` of a table of capacity `cap` under hash
function `f`: no slot is ever a `ListEntry`; a `TreeEntry` is a nonempty
search-ordered tree whose entries carry their key's hash, belong to this slot,
and have pairwise distinct keys. -/
def SlotOk (f : K → Nat) (cap i : Nat) : Entry K V → Prop
  | .ListEntry _ => False
  | .TreeEntry t =>
      t ≠ .leaf ∧ SearchInv t ∧
      (∀ x ∈ t.inorder, x.1 = f x.2.1 ∧ x.1 &&& (cap - 1) = i) ∧
      (t.inorder.map (fun x => x.2.1)).Nodup
  | .Empty => True

/-- The state invariant of the table (everything but the count). -/
structure TableInv (m : HashMap K V) : Prop where
  pow : ∃ j, m.table.length = 2 ^ j
  slots : ∀ i, i < m.table.length →
    SlotOk m.hash_fn m.table.length i (m.table.getD i .Empty)

/-- The full state invariant: table invariant plus the count identity. -/
def Inv (m : HashMap K V) : Prop :=
  TableInv m ∧ m.len = (mapEntriesKV m).length

theorem TableInv.cap_pos {m : HashMap K V} (hT : TableInv m) :
    0 < m.table.length := by
  obtain ⟨j, hj⟩ := hT.pow
  rw [hj]
  exact Nat.pos_pow_of_pos j (by omega)

theorem hash_index_lt (m : HashMap K V) (h : Nat) (hcap : 0 < m.table.length) :
    m.hash_index h < m.table.length := by
  have hle : h &&& (m.table.length - 1) ≤ m.table.length - 1 := Nat.and_le_right
  rw [HashMap.hash_index]
  omega

/-- The slot index used by all operations for key `k`. -/
def slotIdx (m : HashMap K V) (k : K) : Nat :=
  m.hash_index (m.hash k)

theorem get_key_value_eq (m : HashMap K V) (k : K) :
    m.get_key_value k =
      match m.table.getD (slotIdx m k) Entry.Empty with
      | .ListEntry list => list.get_key_value k
      | .TreeEntry tree => tree.get_key_value (m.hash k) k
      | .Empty => none := rfl

theorem iit_eq_of_list (m : HashMap K V) (k : K) (v : V) (list : LinkedList K V)
    (hslot : m.table.getD (m.hash_index (m.hash k)) Entry.Empty
      = Entry.ListEntry list) :
    m.insert_into_table k v =
      ({ m with table := (m.table.set (m.hash_index (m.hash k))
          (Entry.ListEntry (list.insert k v).1)) }, (list.insert k v).2) := by
  simp only [HashMap.insert_into_table, hslot]

theorem iit_eq_of_tree (m : HashMap K V) (k : K) (v : V) (tree : AvlTree K V)
    (hslot : m.table.getD (m.hash_index (m.hash k)) Entry.Empty
      = Entry.TreeEntry tree) :
    m.insert_into_table k v =
      ({ m with table := (m.table.set (m.hash_index (m.hash k))
          (Entry.TreeEntry (tree.insert (m.hash k) k v).1)) },
        (tree.insert (m.hash k) k v).2) := by
  simp only [HashMap.insert_into_table, hslot]

theorem iit_eq_of_empty (m : HashMap K V) (k : K) (v : V)
    (hslot : m.table.getD (m.hash_index (m.hash k)) Entry.Empty = Entry.Empty) :
    m.insert_into_table k v =
      ({ m with table := (m.table.set (m.hash_index (m.hash k))
          (Entry.TreeEntry ((AvlTree.leaf : AvlTree K V).insert
            (m.hash k) k v).1)) }, none) := by
  simp only [HashMap.insert_into_table, hslot]

theorem insert_into_table_fields (m : HashMap K V) (k : K) (v : V) :
    (m.insert_into_table k v).1.table.length = m.table.length ∧
      (m.insert_into_table k v).1.hash_fn = m.hash_fn ∧
      (m.insert_into_table k v).1.len = m.len := by
  cases hslot : m.table.getD (m.hash_index (m.hash k)) Entry.Empty with
  | ListEntry list => rw [iit_eq_of_list m k v list hslot]; simp
  | TreeEntry tree => rw [iit_eq_of_tree m k v tree hslot]; simp
  | Empty => rw [iit_eq_of_empty m k v hslot]; simp

theorem insert_into_table_slot_other (m : HashMap K V) (k : K) (v : V)
    (j : Nat) (hj : m.hash_index (m.hash k) ≠ j) :
    (m.insert_into_table k v).1.table.getD j Entry.Empty =
      m.table.getD j Entry.Empty := by
  cases hslot : m.table.getD (m.hash_index (m.hash k)) Entry.Empty with
  | ListEntry list =>
    rw [iit_eq_of_list m k v list hslot]
    exact listGetD_set_ne _ _ _ _ _ hj
  | TreeEntry tree =>
    rw [iit_eq_of_tree m k v tree hslot]
    exact listGetD_set_ne _ _ _ _ _ hj
  | Empty =>
    rw [iit_eq_of_empty m k v hslot]
    exact listGetD_set_ne _ _ _ _ _ hj

theorem get_key_value_set_slot (m : HashMap K V) (k' : K) (i : Nat)
    (e : Entry K V) (hi : i < m.table.length)
    (heq : m.hash_fn k' &&& (m.table.length - 1) = i) :
    ({ m with table := m.table.set i e } : HashMap K V).get_key_value k' =
      (match e with
       | .ListEntry list => list.get_key_value k'
       | .TreeEntry tree => tree.get_key_value (m.hash_fn k') k'
       | .Empty => none) := by
  simp only [HashMap.get_key_value, HashMap.hash, HashMap.hash_index,
    List.length_set]
  rw [heq, listGetD_set_self _ _ _ _ hi]

theorem get_key_value_set_other (m : HashMap K V) (k' : K) (i : Nat)
    (e : Entry K V) (hne : ¬ m.hash_fn k' &&& (m.table.length - 1) = i) :
    ({ m with table := m.table.set i e } : HashMap K V).get_key_value k' =
      m.get_key_value k' := by
  simp only [HashMap.get_key_value, HashMap.hash, HashMap.hash_index,
    List.length_set]
  rw [listGetD_set_ne _ _ _ _ _ (fun hx => hne hx.symm)]

theorem get_iit_self (m : HashMap K V) (k : K) (v : V) (hT : TableInv m) :
    (m.insert_into_table k v).1.get_key_value k = some (k, v) := by
  have hcap : 0 < m.table.length := hT.cap_pos
  have hidx : m.hash_index (m.hash k) < m.table.length := hash_index_lt m _ hcap
  have hieq : m.hash_fn k &&& (m.table.length - 1) = m.hash_index (m.hash k) := rfl
  cases hslot : m.table.getD (m.hash_index (m.hash k)) Entry.Empty with
  | ListEntry list =>
    have hs := hT.slots _ hidx
    rw [hslot] at hs
    simp [SlotOk] at hs
  | TreeEntry tree =>
    rw [iit_eq_of_tree m k v tree hslot]
    rw [get_key_value_set_slot m k _ _ hidx hieq]
    exact AvlTree.get_insert_self tree _ k v
  | Empty =>
    rw [iit_eq_of_empty m k v hslot]
    rw [get_key_value_set_slot m k _ _ hidx hieq]
    exact AvlTree.get_insert_self .leaf _ k v

theorem get_iit_ne (m : HashMap K V) (k k' : K) (v : V) (hT : TableInv m)
    (hne : k' ≠ k) :
    (m.insert_into_table k v).1.get_key_value k' = m.get_key_value k' := by
  have hcap : 0 < m.table.length := hT.cap_pos
  have hidx : m.hash_index (m.hash k) < m.table.length := hash_index_lt m _ hcap
  have hpair : ¬(m.hash k = m.hash_fn k' ∧ k = k') := fun hx => hne hx.2.symm
  by_cases hj : m.hash_fn k' &&& (m.table.length - 1) = m.hash_index (m.hash k)
  · cases hslot : m.table.getD (m.hash_index (m.hash k)) Entry.Empty with
    | ListEntry list =>
      have hs := hT.slots _ hidx
      rw [hslot] at hs
      simp [SlotOk] at hs
    | TreeEntry tree =>
      rw [iit_eq_of_tree m k v tree hslot]
      rw [get_key_value_set_slot m k' _ _ hidx hj]
      rw [get_key_value_eq m k']
      have hsl' : m.table.getD (slotIdx m k') Entry.Empty = Entry.TreeEntry tree := by
        rw [show slotIdx m k' = m.hash_index (m.hash k) from hj]
        exact hslot
      rw [hsl']
      exact AvlTree.get_insert_ne tree _ _ k k' v hpair
    | Empty =>
      rw [iit_eq_of_empty m k v hslot]
      rw [get_key_value_set_slot m k' _ _ hidx hj]
      rw [get_key_value_eq m k']
      have hsl' : m.table.getD (slotIdx m k') Entry.Empty = Entry.Empty := by
        rw [show slotIdx m k' = m.hash_index (m.hash k) from hj]
        exact hslot
      rw [hsl']
      exact AvlTree.get_insert_ne .leaf _ _ k k' v hpair
  · cases hslot : m.table.getD (m.hash_index (m.hash k)) Entry.Empty with
    | ListEntry list =>
      rw [iit_eq_of_list m k v list hslot]
      exact get_key_value_set_other m k' _ _ hj
    | TreeEntry tree =>
      rw [iit_eq_of_tree m k v tree hslot]
      exact get_key_value_set_other m k' _ _ hj
    | Empty =>
      rw [iit_eq_of_empty m k v hslot]
      exact get_key_value_set_other m k' _ _ hj

theorem iit_ret (m : HashMap K V) (k : K) (v : V) (hT : TableInv m) :
    (m.insert_into_table k v).2 =
      (m.get_key_value k).map (fun p => p.2) := by
  have hcap : 0 < m.table.length := hT.cap_pos
  have hidx : m.hash_index (m.hash k) < m.table.length := hash_index_lt m _ hcap
  cases hslot : m.table.getD (m.hash_index (m.hash k)) Entry.Empty with
  | ListEntry list =>
    have hs := hT.slots _ hidx
    rw [hslot] at hs
    simp [SlotOk] at hs
  | TreeEntry tree =>
    rw [iit_eq_of_tree m k v tree hslot, get_key_value_eq m k,
      show m.table.getD (slotIdx m k) Entry.Empty = Entry.TreeEntry tree from hslot]
    exact AvlTree.insert_ret tree _ k v
  | Empty =>
    rw [iit_eq_of_empty m k v hslot, get_key_value_eq m k,
      show m.table.getD (slotIdx m k) Entry.Empty = Entry.Empty from hslot]
    rfl

theorem slotOk_new_tree (m : HashMap K V) (k : K) (v : V) :
    SlotOk m.hash_fn m.table.length (m.hash_index (m.hash k))
      (Entry.TreeEntry ((AvlTree.leaf : AvlTree K V).insert (m.hash k) k v).1) := by
  refine ⟨by simp [AvlTree.insert, AvlTree.newNode], ?_, ?_, ?_⟩
  · simp [AvlTree.insert, AvlTree.newNode, SearchInv, AvlTree.inorder]
  · intro x hx
    have hx' : x = (m.hash k, k, v) := by
      simpa [AvlTree.insert, AvlTree.newNode, AvlTree.inorder] using hx
    subst hx'
    exact ⟨rfl, rfl⟩
  · simp [AvlTree.insert, AvlTree.newNode, AvlTree.inorder]

theorem slotOk_insert_tree (m : HashMap K V) (k : K) (v : V)
    (tree : AvlTree K V)
    (hs : SlotOk m.hash_fn m.table.length (m.hash_index (m.hash k))
      (Entry.TreeEntry tree)) :
    SlotOk m.hash_fn m.table.length (m.hash_index (m.hash k))
      (Entry.TreeEntry (tree.insert (m.hash k) k v).1) := by
  obtain ⟨-, hinv, hok, hnd⟩ := hs
  refine ⟨AvlTree.insert_ne_leaf tree _ k v, searchInv_insert tree _ k v hinv,
    ?_, ?_⟩
  · intro x hx
    rcases AvlTree.mem_inorder_insert tree _ k v x hx with hold | hnew
    · exact hok x hold
    · subst hnew
      exact ⟨rfl, rfl⟩
  · cases hret : (tree.insert (m.hash k) k v).2 with
    | none =>
      have hperm :=
        (AvlTree.inorder_insert_of_ret_none tree _ k v hret).map
          (fun x => x.2.1)
      rw [hperm.nodup_iff]
      refine List.nodup_cons.mpr ⟨?_, hnd⟩
      refine not_mem_keys_of_ret_none tree _ k v hinv ?_ hret
      intro x hx hxk
      rw [(hok x hx).1, hxk]
      rfl
    | some w =>
      rw [AvlTree.inorder_keys_insert_of_ret_some tree _ k v w hret]
      exact hnd

theorem tableInv_iit (m : HashMap K V) (k : K) (v : V) (hT : TableInv m) :
    TableInv (m.insert_into_table k v).1 := by
  have hcap := hT.cap_pos
  have hidx : m.hash_index (m.hash k) < m.table.length := hash_index_lt m _ hcap
  obtain ⟨hlen, hf, -⟩ := insert_into_table_fields m k v
  refine ⟨by rw [hlen]; exact hT.pow, ?_⟩
  intro j hj
  rw [hlen] at hj
  rw [hlen, hf]
  by_cases hji : m.hash_index (m.hash k) = j
  · subst hji
    cases hslot : m.table.getD (m.hash_index (m.hash k)) Entry.Empty with
    | ListEntry list =>
      have hs := hT.slots _ hidx
      rw [hslot] at hs
      simp [SlotOk] at hs
    | TreeEntry tree =>
      rw [iit_eq_of_tree m k v tree hslot]
      have hgd : ((m.table.set (m.hash_index (m.hash k))
          (Entry.TreeEntry (tree.insert (m.hash k) k v).1))).getD
          (m.hash_index (m.hash k)) Entry.Empty
          = Entry.TreeEntry (tree.insert (m.hash k) k v).1 :=
        listGetD_set_self _ _ _ _ hidx
      rw [show ({ m with table := (m.table.set (m.hash_index (m.hash k))
          (Entry.TreeEntry (tree.insert (m.hash k) k v).1)) } : HashMap K V).table
          = m.table.set (m.hash_index (m.hash k))
            (Entry.TreeEntry (tree.insert (m.hash k) k v).1) from rfl, hgd]
      have hs := hT.slots _ hidx
      rw [hslot] at hs
      exact slotOk_insert_tree m k v tree hs
    | Empty =>
      rw [iit_eq_of_empty m k v hslot]
      have hgd : ((m.table.set (m.hash_index (m.hash k))
          (Entry.TreeEntry ((AvlTree.leaf : AvlTree K V).insert
            (m.hash k) k v).1))).getD (m.hash_index (m.hash k)) Entry.Empty
          = Entry.TreeEntry ((AvlTree.leaf : AvlTree K V).insert
            (m.hash k) k v).1 :=
        listGetD_set_self _ _ _ _ hidx
      rw [show ({ m with table := (m.table.set (m.hash_index (m.hash k))
          (Entry.TreeEntry ((AvlTree.leaf : AvlTree K V).insert
            (m.hash k) k v).1)) } : HashMap K V).table
          = m.table.set (m.hash_index (m.hash k))
            (Entry.TreeEntry ((AvlTree.leaf : AvlTree K V).insert
              (m.hash k) k v).1) from rfl, hgd]
      exact slotOk_new_tree m k v
  · rw [show (m.insert_into_table k v).1.table.getD j Entry.Empty
      = m.table.getD j Entry.Empty from
        insert_into_table_slot_other m k v j hji]
    exact hT.slots j hj

theorem listGetD_map {α β : Type} (l : List α) (f : α → β) (i : Nat)
    (d : α) (d' : β) (h : i < l.length) :
    (l.map f).getD i d' = f (l.getD i d) := by
  induction l generalizing i with
  | nil => simp at h
  | cons x xs ih =>
    cases i with
    | zero => rfl
    | succ j => exact ih j (by simpa using h)

theorem entryKV_len_set (tb : List (Entry K V)) (i : Nat) (e' : Entry K V)
    (hi : i < tb.length) :
    ((tb.set i e').map Entry.entryKV).flatten.length
        + (Entry.entryKV (tb.getD i Entry.Empty)).length
      = (tb.map Entry.entryKV).flatten.length
        + (Entry.entryKV e').length := by
  rw [List.length_flatten, List.length_flatten, List.map_set, List.map_set]
  have hlen : i < ((tb.map Entry.entryKV).map List.length).length := by
    simpa using hi
  have hsum := listSum_set ((tb.map Entry.entryKV).map List.length) i
    (Entry.entryKV e').length hlen
  have hgd : ((tb.map Entry.entryKV).map List.length).getD i 0
      = (Entry.entryKV (tb.getD i Entry.Empty)).length := by
    rw [listGetD_map _ _ i (Entry.entryKV Entry.Empty) 0 (by simpa using hi),
      listGetD_map _ _ i Entry.Empty (Entry.entryKV Entry.Empty) hi]
  rw [hgd] at hsum
  omega

theorem mapEntriesKV_set_len (m : HashMap K V) (i : Nat) (e' : Entry K V)
    (hi : i < m.table.length) :
    (mapEntriesKV ({ m with table := m.table.set i e' } : HashMap K V)).length
        + (Entry.entryKV (m.table.getD i Entry.Empty)).length
      = (mapEntriesKV m).length + (Entry.entryKV e').length := by
  simpa [mapEntriesKV] using entryKV_len_set m.table i e' hi

theorem mapCount_iit (m : HashMap K V) (k : K) (v : V) (hT : TableInv m) :
    (mapEntriesKV (m.insert_into_table k v).1).length =
      (mapEntriesKV m).length
        + (if (m.insert_into_table k v).2.isNone then 1 else 0) := by
  have hcap := hT.cap_pos
  have hidx : m.hash_index (m.hash k) < m.table.length := hash_index_lt m _ hcap
  cases hslot : m.table.getD (m.hash_index (m.hash k)) Entry.Empty with
  | ListEntry list =>
    have hs := hT.slots _ hidx
    rw [hslot] at hs
    simp [SlotOk] at hs
  | TreeEntry tree =>
    rw [iit_eq_of_tree m k v tree hslot]
    have hkey := mapEntriesKV_set_len m (m.hash_index (m.hash k))
      (Entry.TreeEntry (tree.insert (m.hash k) k v).1) hidx
    rw [hslot] at hkey
    have h1 : (Entry.entryKV (Entry.TreeEntry tree)).length
        = tree.inorder.length := by
      simp [Entry.entryKV, AvlTree.inorderKV]
    have h2 : (Entry.entryKV
          (Entry.TreeEntry (tree.insert (m.hash k) k v).1)).length
        = (tree.insert (m.hash k) k v).1.inorder.length := by
      simp [Entry.entryKV, AvlTree.inorderKV]
    rw [h1, h2] at hkey
    cases hret : (tree.insert (m.hash k) k v).2 with
    | none =>
      have hlen1 : (tree.insert (m.hash k) k v).1.inorder.length
          = tree.inorder.length + 1 := by
        simpa using (AvlTree.inorder_insert_of_ret_none tree _ k v hret).length_eq
      simp only
      simp only [Option.isNone_none, if_true]
      omega
    | some w =>
      have hkeys := AvlTree.inorder_keys_insert_of_ret_some tree _ k v w hret
      have hlen1 : (tree.insert (m.hash k) k v).1.inorder.length
          = tree.inorder.length := by
        have := congrArg List.length hkeys
        simpa using this
      simp only
      simp only [Option.isNone_some, Bool.false_eq_true, if_false]
      omega
  | Empty =>
    rw [iit_eq_of_empty m k v hslot]
    have hkey := mapEntriesKV_set_len m (m.hash_index (m.hash k))
      (Entry.TreeEntry ((AvlTree.leaf : AvlTree K V).insert (m.hash k) k v).1)
      hidx
    rw [hslot] at hkey
    have h0 : (Entry.entryKV (Entry.Empty : Entry K V)).length = 0 := rfl
    have h2 : (Entry.entryKV (Entry.TreeEntry
          ((AvlTree.leaf : AvlTree K V).insert (m.hash k) k v).1)).length
        = 1 := by
      simp [Entry.entryKV, AvlTree.inorderKV, AvlTree.insert, AvlTree.newNode,
        AvlTree.inorder]
    rw [h0, h2] at hkey
    simp only
    simp only [Option.isNone_none, if_true]
    omega

theorem remove_entry_id (m : HashMap K V) (k : K) (hT : TableInv m) :
    m.remove_entry k = (m, none) := by
  have hcap := hT.cap_pos
  have hidx : m.hash_index (m.hash k) < m.table.length := hash_index_lt m _ hcap
  cases hslot : m.table.getD (m.hash_index (m.hash k)) Entry.Empty with
  | ListEntry list =>
    have hs := hT.slots _ hidx
    rw [hslot] at hs
    simp [SlotOk] at hs
  | TreeEntry tree =>
    have hs := hT.slots _ hidx
    rw [hslot] at hs
    have hne : tree ≠ .leaf := hs.1
    cases tree with
    | leaf => exact absurd rfl hne
    | node sh sk sv l r =>
      simp only [HashMap.remove_entry, hslot,
        remove_entry_stub (AvlTree.node sh sk sv l r) (m.hash k) k
          (by simp)]
      simp only [Option.isSome_none, Bool.false_eq_true, if_neg,
        AvlTree.is_empty, if_false]
      rw [← hslot, listSet_getD_self _ _ _ hidx]
  | Empty =>
    simp only [HashMap.remove_entry, hslot]

/-! ### Resize machinery -/

/-- First value associated with a key in an association list. -/
def assocFind : List (K × V) → K → Option V
  | [], _ => none
  | (k', v') :: rest, k => if k' = k then some v' else assocFind rest k

theorem assocFind_eq_none_iff (L : List (K × V)) (k : K) :
    assocFind L k = none ↔ k ∉ L.map Prod.fst := by
  induction L with
  | nil => simp [assocFind]
  | cons p rest ih =>
    obtain ⟨k', v'⟩ := p
    by_cases hk : k' = k
    · subst hk
      simp [assocFind]
    · simp [assocFind, hk, ih, Ne.symm hk]

theorem assocFind_some_mem (L : List (K × V)) (k : K) (v : V)
    (h : assocFind L k = some v) : (k, v) ∈ L := by
  induction L with
  | nil => simp [assocFind] at h
  | cons p rest ih =>
    obtain ⟨k', v'⟩ := p
    by_cases hk : k' = k
    · subst hk
      have hv : v' = v := by simpa [assocFind] using h
      simp [hv]
    · have h' : assocFind rest k = some v := by simpa [assocFind, hk] using h
      simp [ih h']

theorem assocFind_of_mem (L : List (K × V)) (k : K) (v : V)
    (hnd : (L.map Prod.fst).Nodup) (hm : (k, v) ∈ L) :
    assocFind L k = some v := by
  induction L with
  | nil => simp at hm
  | cons p rest ih =>
    obtain ⟨k', v'⟩ := p
    simp only [List.map_cons, List.nodup_cons] at hnd
    rcases List.mem_cons.mp hm with hh | ht
    · obtain ⟨h1, h2⟩ := Prod.mk.injEq .. ▸ hh.symm
      simp [assocFind, h1.symm, h2]
    · have hk : k' ≠ k := by
        intro he
        subst he
        exact hnd.1 (by simpa using List.mem_map_of_mem Prod.fst ht)
      simp [assocFind, hk, ih hnd.2 ht]

theorem reinsertList_fields (L : List (K × V)) :
    ∀ m : HashMap K V,
      (m.reinsertList L).table.length = m.table.length ∧
        (m.reinsertList L).hash_fn = m.hash_fn ∧
        (m.reinsertList L).len = m.len := by
  induction L with
  | nil => intro m; exact ⟨rfl, rfl, rfl⟩
  | cons p rest ih =>
    intro m
    obtain ⟨h1, h2, h3⟩ := ih (m.insert_into_table p.1 p.2).1
    obtain ⟨g1, g2, g3⟩ := insert_into_table_fields m p.1 p.2
    exact ⟨by rw [HashMap.reinsertList, h1, g1],
      by rw [HashMap.reinsertList, h2, g2],
      by rw [HashMap.reinsertList, h3, g3]⟩

theorem reinsertList_append (A B : List (K × V)) :
    ∀ m : HashMap K V,
      m.reinsertList (A ++ B) = ((m.reinsertList A).reinsertList B) := by
  induction A with
  | nil => intro m; rfl
  | cons p rest ih =>
    intro m
    rw [List.cons_append, HashMap.reinsertList, HashMap.reinsertList]
    exact ih _

theorem reinsertList_spec (L : List (K × V)) :
    ∀ m : HashMap K V, TableInv m → (L.map Prod.fst).Nodup →
      (∀ p ∈ L, m.get_key_value p.1 = none) →
      TableInv (m.reinsertList L) ∧
        ∀ k', (m.reinsertList L).get_key_value k' =
          (match assocFind L k' with
           | some v => some (k', v)
           | none => m.get_key_value k') := by
  induction L with
  | nil =>
    intro m hT _ _
    exact ⟨hT, fun k' => by simp [HashMap.reinsertList, assocFind]⟩
  | cons p rest ih =>
    intro m hT hnd hnone
    obtain ⟨k0, v0⟩ := p
    simp only [List.map_cons, List.nodup_cons] at hnd
    have hT1 : TableInv (m.insert_into_table k0 v0).1 := tableInv_iit m k0 v0 hT
    have hrest : ∀ q ∈ rest, (m.insert_into_table k0 v0).1.get_key_value q.1 = none := by
      intro q hq
      have hqk : q.1 ≠ k0 := by
        intro he
        exact hnd.1 (he ▸ List.mem_map_of_mem Prod.fst hq)
      rw [get_iit_ne m k0 q.1 v0 hT hqk]
      exact hnone q (List.mem_cons_of_mem _ hq)
    obtain ⟨hT', hget'⟩ := ih (m.insert_into_table k0 v0).1 hT1 hnd.2 hrest
    refine ⟨hT', ?_⟩
    intro k'
    rw [show m.reinsertList ((k0, v0) :: rest)
      = (m.insert_into_table k0 v0).1.reinsertList rest from rfl]
    rw [hget' k']
    by_cases hk : k0 = k'
    · subst hk
      have hfr : assocFind rest k0 = none :=
        (assocFind_eq_none_iff rest k0).mpr hnd.1
      rw [hfr]
      simp only [assocFind, if_pos rfl]
      exact get_iit_self m k0 v0 hT
    · cases hfr : assocFind rest k' with
      | none =>
        simp only [assocFind, if_neg hk, hfr]
        exact get_iit_ne m k0 k' v0 hT (Ne.symm hk)
      | some w =>
        simp only [assocFind, if_neg hk, hfr]

theorem listGetD_replicate {α : Type} (n : Nat) (a d : α) (i : Nat) :
    (List.replicate n a).getD i d = if i < n then a else d := by
  induction n generalizing i with
  | zero => simp
  | succ j ih =>
    cases i with
    | zero => simp [List.replicate]
    | succ i' =>
      rw [show List.replicate (j + 1) a = a :: List.replicate j a from rfl]
      rw [List.getD_cons_succ, ih]
      by_cases hij : i' < j
      · rw [if_pos hij, if_pos (by omega)]
      · rw [if_neg hij, if_neg (by omega)]

theorem freshDouble_tableInv (m : HashMap K V) (hT : TableInv m) :
    TableInv ({ m with
      table := (List.replicate (m.table.length <<< 1) Entry.Empty) } : HashMap K V) := by
  obtain ⟨j, hj⟩ := hT.pow
  refine ⟨⟨j + 1, ?_⟩, ?_⟩
  · simp [Nat.shiftLeft_eq, hj, Nat.pow_succ]
  · intro i hi
    simp only [List.length_replicate] at hi
    rw [show ({ m with table := (List.replicate (m.table.length <<< 1)
        Entry.Empty) } : HashMap K V).table
      = List.replicate (m.table.length <<< 1) Entry.Empty from rfl]
    rw [listGetD_replicate _ _ _ i, if_pos hi]
    exact trivial

theorem fresh_table_get_none (m : HashMap K V) (n : Nat) (k : K) :
    ({ m with table := (List.replicate n Entry.Empty) } : HashMap K V).get_key_value k
      = none := by
  rw [get_key_value_eq]
  rw [show ({ m with table := (List.replicate n Entry.Empty) } : HashMap K V).table
    = List.replicate n Entry.Empty from rfl]
  rw [listGetD_replicate, ite_self]

theorem resize_eq (m : HashMap K V) :
    m.resize = HashMap.reinsertList
      ({ m with table := List.replicate (m.table.length <<< 1) Entry.Empty })
      (mapEntriesKV m) := by
  rw [HashMap.resize, mapEntriesKV]
  generalize ({ m with
    table := (List.replicate (m.table.length <<< 1) Entry.Empty) } :
      HashMap K V) = start
  induction m.table generalizing start with
  | nil => rfl
  | cons e rest ih =>
    rw [List.foldl_cons, List.map_cons, List.flatten_cons, reinsertList_append]
    have hstep : (match e with
        | Entry.ListEntry list => HashMap.reinsertList start list.intoIter
        | Entry.TreeEntry tree => HashMap.reinsertList start tree.intoIter
        | Entry.Empty => start)
        = start.reinsertList (Entry.entryKV e) := by
      cases e with
      | ListEntry list => rfl
      | TreeEntry tree =>
        rw [show Entry.entryKV (Entry.TreeEntry tree) = tree.inorderKV from rfl,
          ← intoIter_eq_inorderKV]
      | Empty => rfl
    rw [hstep]
    exact ih _

theorem get_shape (m : HashMap K V) (hT : TableInv m) (k : K) (p : K × V)
    (hg : m.get_key_value k = some p) : p.1 = k := by
  have hidx : slotIdx m k < m.table.length := hash_index_lt m _ hT.cap_pos
  rw [get_key_value_eq] at hg
  cases hslot : m.table.getD (slotIdx m k) Entry.Empty with
  | ListEntry _ =>
    have hs := hT.slots _ hidx
    rw [hslot] at hs
    simp [SlotOk] at hs
  | Empty => rw [hslot] at hg; simp at hg
  | TreeEntry t =>
    rw [hslot] at hg
    exact (mem_inorder_of_get t _ k p hg).1

theorem mem_entries_iff_get (m : HashMap K V) (hT : TableInv m) (k : K) (v : V) :
    (k, v) ∈ mapEntriesKV m ↔ m.get_key_value k = some (k, v) := by
  have hidx : slotIdx m k < m.table.length := hash_index_lt m _ hT.cap_pos
  constructor
  · intro hm
    obtain ⟨i, hi, hx⟩ :=
      (mem_flatten_map_getD m.table Entry.entryKV Entry.Empty (k, v)).mp hm
    have hs := hT.slots i hi
    cases hslot : m.table.getD i Entry.Empty with
    | ListEntry _ => rw [hslot] at hs; simp [SlotOk] at hs
    | Empty => rw [hslot] at hx; simp [Entry.entryKV] at hx
    | TreeEntry t =>
      rw [hslot] at hs hx
      obtain ⟨hnl, hinv, hok, hnd⟩ := hs
      obtain ⟨x, hxm, hxe⟩ := List.mem_map.mp
        (show (k, v) ∈ t.inorder.map (fun y => (y.2.1, y.2.2)) from hx)
      obtain ⟨xh, xk, xv⟩ := x
      simp only at hxe
      have h1 : xk = k := congrArg Prod.fst hxe
      have h2 : xv = v := congrArg Prod.snd hxe
      have hh : xh = m.hash_fn xk := (hok _ hxm).1
      have hidx2 : xh &&& (m.table.length - 1) = i := (hok _ hxm).2
      have hfk : xh = m.hash_fn k := by rw [hh, h1]
      have hieq : slotIdx m k = i := by
        rw [show slotIdx m k = m.hash_fn k &&& (m.table.length - 1) from rfl,
          ← hfk]
        exact hidx2
      have hmem2 : (m.hash_fn k, k, xv) ∈ t.inorder := by
        rw [← hfk, ← h1]
        exact hxm
      obtain ⟨v', hv'⟩ := get_of_mem_inorder t (m.hash_fn k) k xv hinv hmem2
      have hv'mem :=
        (mem_inorder_of_get t (m.hash_fn k) k (k, v') hv').2
      have htrip : ((m.hash_fn k, k, v') : Nat × K × V) = (xh, xk, xv) := by
        apply nodupMap_inj t.inorder (fun y => y.2.1) hnd _ hv'mem _ hxm
        simpa using h1.symm
      have hveq : v' = v := by
        have := congrArg (fun y => y.2.2) htrip
        simp only at this
        rw [this, h2]
      rw [get_key_value_eq, hieq, hslot]
      show t.get_key_value (m.hash_fn k) k = some (k, v)
      rw [hv', hveq]
  · intro hg
    rw [get_key_value_eq] at hg
    cases hslot : m.table.getD (slotIdx m k) Entry.Empty with
    | ListEntry _ =>
      have hs := hT.slots _ hidx
      rw [hslot] at hs
      simp [SlotOk] at hs
    | Empty => rw [hslot] at hg; simp at hg
    | TreeEntry t =>
      rw [hslot] at hg
      have hmem := (mem_inorder_of_get t (m.hash k) k (k, v) hg).2
      apply (mem_flatten_map_getD m.table Entry.entryKV Entry.Empty (k, v)).mpr
      refine ⟨slotIdx m k, hidx, ?_⟩
      rw [hslot]
      exact List.mem_map.mpr ⟨(m.hash k, k, v), hmem, rfl⟩

theorem key_slot_idx (f : K → Nat) (cap i : Nat) (e : Entry K V)
    (hs : SlotOk f cap i e) (k : K)
    (hk : k ∈ (Entry.entryKV e).map Prod.fst) :
    f k &&& (cap - 1) = i := by
  cases e with
  | ListEntry _ => simp [SlotOk] at hs
  | Empty => simp [Entry.entryKV] at hk
  | TreeEntry t =>
    obtain ⟨-, -, hok, -⟩ := hs
    obtain ⟨p, hp, hpk⟩ := List.mem_map.mp hk
    obtain ⟨x, hx, hxe⟩ := List.mem_map.mp
      (show p ∈ t.inorder.map (fun y => (y.2.1, y.2.2)) from hp)
    have h1 : x.2.1 = k := by rw [← hpk, ← hxe]
    rw [← h1, ← (hok x hx).1]
    exact (hok x hx).2

theorem key_global_idx (f : K → Nat) (cap : Nat) (tb : List (Entry K V))
    (off : Nat)
    (hslots : ∀ i, i < tb.length → SlotOk f cap (off + i) (tb.getD i Entry.Empty))
    (a : K) (ha : a ∈ ((tb.map Entry.entryKV).flatten).map Prod.fst) :
    ∃ i, i < tb.length ∧ f a &&& (cap - 1) = off + i := by
  obtain ⟨p, hp, hpk⟩ := List.mem_map.mp ha
  obtain ⟨i, hi, hpe⟩ := (mem_flatten_map_getD tb Entry.entryKV Entry.Empty p).mp hp
  refine ⟨i, hi, ?_⟩
  rw [← hpk]
  exact key_slot_idx f cap (off + i) _ (hslots i hi) p.1
    (List.mem_map_of_mem Prod.fst hpe)

theorem keys_nodup_aux (f : K → Nat) (cap : Nat) (tb : List (Entry K V)) :
    ∀ off : Nat,
      (∀ i, i < tb.length → SlotOk f cap (off + i) (tb.getD i Entry.Empty)) →
      (((tb.map Entry.entryKV).flatten).map Prod.fst).Nodup := by
  induction tb with
  | nil => intro off _; simp
  | cons e rest ih =>
    intro off hslots
    have hrest : ∀ i, i < rest.length →
        SlotOk f cap (off + 1 + i) (rest.getD i Entry.Empty) := by
      intro i hi
      have := hslots (i + 1) (by simpa using hi)
      rw [show off + (i + 1) = off + 1 + i from by omega] at this
      exact this
    have he : SlotOk f cap off e := by
      have := hslots 0 (by simp)
      rw [show off + 0 = off from by omega] at this
      exact this
    rw [List.map_cons, List.flatten_cons, List.map_append]
    refine List.Nodup.append ?_ (ih (off + 1) hrest) ?_
    · cases e with
      | ListEntry _ => simp [SlotOk] at he
      | Empty => simp [Entry.entryKV]
      | TreeEntry t =>
        obtain ⟨-, -, -, hnd⟩ := he
        have hmeq : (Entry.entryKV (Entry.TreeEntry t)).map Prod.fst
            = t.inorder.map (fun y => y.2.1) := by
          rw [show Entry.entryKV (Entry.TreeEntry t)
            = t.inorder.map (fun y => (y.2.1, y.2.2)) from rfl, List.map_map]
          rfl
        rw [hmeq]
        exact hnd
    · intro a ha hb
      have h1 : f a &&& (cap - 1) = off := key_slot_idx f cap off e he a ha
      obtain ⟨i, hi, h2⟩ := key_global_idx f cap rest (off + 1) hrest a hb
      omega

theorem mapKeys_nodup (m : HashMap K V) (hT : TableInv m) :
    ((mapEntriesKV m).map Prod.fst).Nodup := by
  rw [mapEntriesKV]
  apply keys_nodup_aux m.hash_fn m.table.length m.table 0
  intro i hi
  have := hT.slots i hi
  rw [show (0 : Nat) + i = i from by omega]
  exact this

theorem resize_spec (m : HashMap K V) (hT : TableInv m) :
    TableInv m.resize ∧ (∀ k, m.resize.get_key_value k = m.get_key_value k) ∧
      m.resize.hash_fn = m.hash_fn ∧ m.resize.len = m.len ∧
      m.resize.table.length = 2 * m.table.length := by
  have hTs := freshDouble_tableInv m hT
  have hnd := mapKeys_nodup m hT
  have hnone : ∀ p ∈ mapEntriesKV m,
      ({ m with table := (List.replicate (m.table.length <<< 1) Entry.Empty) } :
        HashMap K V).get_key_value p.1 = none :=
    fun p _ => fresh_table_get_none m _ p.1
  obtain ⟨hT', hget'⟩ := reinsertList_spec (mapEntriesKV m) _ hTs hnd hnone
  rw [resize_eq]
  refine ⟨hT', ?_, ?_, ?_, ?_⟩
  · intro k
    rw [hget' k]
    cases hfind : assocFind (mapEntriesKV m) k with
    | some v =>
      have hmem := assocFind_some_mem _ _ _ hfind
      exact ((mem_entries_iff_get m hT k v).mp hmem).symm
    | none =>
      rw [fresh_table_get_none]
      cases hg : m.get_key_value k with
      | none => rfl
      | some p =>
        exfalso
        have hp1 : p.1 = k := get_shape m hT k p hg
        have hg' : m.get_key_value k = some (k, p.2) := by
          rw [hg, show ((k, p.2) : K × V) = p from by
            rw [← hp1]]
        have hmem : (k, p.2) ∈ mapEntriesKV m :=
          (mem_entries_iff_get m hT k p.2).mpr hg'
        have hsome := assocFind_of_mem _ _ _ hnd hmem
        rw [hfind] at hsome
        cases hsome
  · exact (reinsertList_fields (mapEntriesKV m) _).2.1
  · exact (reinsertList_fields (mapEntriesKV m) _).2.2
  · rw [(reinsertList_fields (mapEntriesKV m) _).1]
    rw [show ({ m with table := (List.replicate (m.table.length <<< 1)
        Entry.Empty) } : HashMap K V).table
      = List.replicate (m.table.length <<< 1) Entry.Empty from rfl]
    rw [List.length_replicate, Nat.shiftLeft_eq]
    omega

theorem resize_entries_perm (m : HashMap K V) (hT : TableInv m) :
    List.Perm (mapEntriesKV m.resize) (mapEntriesKV m) := by
  obtain ⟨hT', hget, -, -, -⟩ := resize_spec m hT
  have hn1 : (mapEntriesKV m.resize).Nodup := (mapKeys_nodup _ hT').of_map _
  have hn2 : (mapEntriesKV m).Nodup := (mapKeys_nodup _ hT).of_map _
  refine (List.perm_ext_iff_of_nodup hn1 hn2).mpr ?_
  intro a
  obtain ⟨ak, av⟩ := a
  rw [mem_entries_iff_get _ hT', mem_entries_iff_get _ hT, hget ak]

/-! ### The full insert (count update plus load-factor check) -/

/-- The state reached inside `HashMap::insert` after the count update and
before the load-factor check (a proof-side name for the intermediate state). -/
def insertMid (m : HashMap K V) (k : K) (v : V) : HashMap K V :=
  if (m.insert_into_table k v).2.isNone
  then { (m.insert_into_table k v).1 with
    len := (m.insert_into_table k v).1.len + 1 }
  else (m.insert_into_table k v).1

theorem insert_eq (m : HashMap K V) (k : K) (v : V) :
    m.insert k v =
      (if (insertMid m k v).len ≥ 3 * (insertMid m k v).table.length / 4
       then (insertMid m k v).resize else insertMid m k v,
       (m.insert_into_table k v).2) := rfl

theorem mid_table (m : HashMap K V) (k : K) (v : V) :
    (insertMid m k v).table = (m.insert_into_table k v).1.table := by
  rw [insertMid]
  split <;> rfl

theorem mid_hash_fn (m : HashMap K V) (k : K) (v : V) :
    (insertMid m k v).hash_fn = m.hash_fn := by
  rw [insertMid]
  split <;> exact (insert_into_table_fields m k v).2.1

theorem mid_get (m : HashMap K V) (k' k : K) (v : V) :
    (insertMid m k v).get_key_value k'
      = (m.insert_into_table k v).1.get_key_value k' := by
  rw [insertMid]
  split <;> rfl

theorem mid_len (m : HashMap K V) (k : K) (v : V) :
    (insertMid m k v).len =
      (if (m.insert_into_table k v).2.isNone then m.len + 1 else m.len) := by
  rw [insertMid]
  split
  · show (m.insert_into_table k v).1.len + 1 = m.len + 1
    rw [(insert_into_table_fields m k v).2.2]
  · exact (insert_into_table_fields m k v).2.2

theorem mid_tableInv (m : HashMap K V) (k : K) (v : V) (hT : TableInv m) :
    TableInv (insertMid m k v) := by
  have hT1 := tableInv_iit m k v hT
  rw [insertMid]
  split
  · exact ⟨hT1.pow, hT1.slots⟩
  · exact hT1

theorem mid_entries (m : HashMap K V) (k : K) (v : V) :
    mapEntriesKV (insertMid m k v)
      = mapEntriesKV (m.insert_into_table k v).1 := by
  rw [insertMid]
  split <;> rfl

theorem insert_spec (m : HashMap K V) (k : K) (v : V) (hT : TableInv m) :
    TableInv (m.insert k v).1 ∧
      (m.insert k v).1.hash_fn = m.hash_fn ∧
      (m.insert k v).2 = (m.get_key_value k).map (fun p => p.2) ∧
      (m.insert k v).1.get_key_value k = some (k, v) ∧
      (∀ k', k' ≠ k →
        (m.insert k v).1.get_key_value k' = m.get_key_value k') ∧
      (m.insert k v).1.len =
        (if (m.insert k v).2.isNone then m.len + 1 else m.len) ∧
      (m.insert k v).1.table.length =
        (if 3 * m.table.length / 4 ≤
            (if (m.insert k v).2.isNone then m.len + 1 else m.len)
         then 2 * m.table.length else m.table.length) := by
  have hmidT := mid_tableInv m k v hT
  have hmtab : (insertMid m k v).table.length = m.table.length := by
    rw [mid_table]
    exact (insert_into_table_fields m k v).1
  rw [insert_eq]
  by_cases hcond :
      (insertMid m k v).len ≥ 3 * (insertMid m k v).table.length / 4
  · rw [if_pos hcond]
    obtain ⟨hrT, hrget, hrf, hrlen, hrtab⟩ := resize_spec _ hmidT
    refine ⟨hrT, by rw [hrf, mid_hash_fn], iit_ret m k v hT, ?_, ?_, ?_, ?_⟩
    · rw [hrget k, mid_get, get_iit_self m k v hT]
    · intro k' hk'
      rw [hrget k', mid_get, get_iit_ne m k k' v hT hk']
    · rw [hrlen, mid_len]
    · rw [hrtab, hmtab]
      rw [if_pos ?hc]
      case hc =>
        rw [← mid_len m k v]
        rw [← hmtab]
        exact hcond
  · rw [if_neg hcond]
    refine ⟨hmidT, mid_hash_fn m k v, iit_ret m k v hT, ?_, ?_, ?_, ?_⟩
    · rw [mid_get, get_iit_self m k v hT]
    · intro k' hk'
      rw [mid_get, get_iit_ne m k k' v hT hk']
    · exact mid_len m k v
    · rw [hmtab]
      rw [if_neg ?hc]
      case hc =>
        rw [← mid_len m k v, ← hmtab]
        exact hcond

theorem inv_insert (m : HashMap K V) (k : K) (v : V) (hI : Inv m) :
    Inv (m.insert k v).1 := by
  obtain ⟨hT, hlen⟩ := hI
  have hmidT := mid_tableInv m k v hT
  have hmidInv : (insertMid m k v).len = (mapEntriesKV (insertMid m k v)).length := by
    rw [mid_len, mid_entries, mapCount_iit m k v hT, ← hlen]
    split <;> simp
  rw [insert_eq]
  by_cases hcond :
      (insertMid m k v).len ≥ 3 * (insertMid m k v).table.length / 4
  · rw [if_pos hcond]
    obtain ⟨hrT, -, -, hrlen, -⟩ := resize_spec _ hmidT
    refine ⟨hrT, ?_⟩
    rw [hrlen, (resize_entries_perm _ hmidT).length_eq]
    exact hmidInv
  · rw [if_neg hcond]
    exact ⟨hmidT, hmidInv⟩

/-! ### Constructor and reachability -/

theorem grow_pow (cap j : Nat) :
    ∃ j', HashMap.grow cap (2 ^ j) = 2 ^ j' := by
  rw [HashMap.grow]
  by_cases hc : 2 ^ j < cap ∧ 2 ^ j ≠ 0
  · rw [if_pos hc]
    rw [show (2 ^ j) <<< 1 = 2 ^ (j + 1) from by
      rw [Nat.shiftLeft_eq, Nat.pow_one, Nat.pow_succ]]
    exact grow_pow cap (j + 1)
  · rw [if_neg hc]
    exact ⟨j, rfl⟩
termination_by cap - 2 ^ j
decreasing_by
  have h2 : 2 ^ j < 2 ^ (j + 1) := Nat.pow_lt_pow_succ (by omega)
  omega

theorem grow_ge (cap capacity : Nat) (h0 : capacity ≠ 0) :
    cap ≤ HashMap.grow cap capacity := by
  rw [HashMap.grow]
  by_cases hc : capacity < cap ∧ capacity ≠ 0
  · rw [if_pos hc]
    exact grow_ge cap (capacity <<< 1)
      (by rw [Nat.shiftLeft_eq, Nat.pow_one]; omega)
  · rw [if_neg hc]
    omega
termination_by cap - capacity
decreasing_by
  rw [Nat.shiftLeft_eq, Nat.pow_one]
  omega

theorem grow_min (cap j jp : Nat) (hle : j ≤ jp) (hcap : cap ≤ 2 ^ jp) :
    HashMap.grow cap (2 ^ j) ≤ 2 ^ jp := by
  rw [HashMap.grow]
  by_cases hc : 2 ^ j < cap ∧ 2 ^ j ≠ 0
  · rw [if_pos hc]
    rw [show (2 ^ j) <<< 1 = 2 ^ (j + 1) from by
      rw [Nat.shiftLeft_eq, Nat.pow_one, Nat.pow_succ]]
    apply grow_min cap (j + 1) jp ?_ hcap
    have hjj : 2 ^ j < 2 ^ jp := lt_of_lt_of_le hc.1 hcap
    have := (Nat.pow_lt_pow_iff_right (by omega : 1 < 2)).mp hjj
    omega
  · rw [if_neg hc]
    exact Nat.pow_le_pow_right (by omega) hle
termination_by cap - 2 ^ j
decreasing_by
  have h2 : 2 ^ j < 2 ^ (j + 1) := Nat.pow_lt_pow_succ (by omega)
  omega

theorem with_capacity_fields (cap : Nat) (f : K → Nat) :
    (HashMap.with_capacity_and_hasher cap f (V := V)).table
        = List.replicate (HashMap.grow cap 1) Entry.Empty ∧
      (HashMap.with_capacity_and_hasher cap f (V := V)).hash_fn = f ∧
      (HashMap.with_capacity_and_hasher cap f (V := V)).len = 0 :=
  ⟨rfl, rfl, rfl⟩

theorem fresh_tableInv (cap : Nat) (f : K → Nat) :
    TableInv (HashMap.with_capacity_and_hasher cap f (V := V)) := by
  constructor
  · rw [(with_capacity_fields cap f).1, List.length_replicate]
    exact grow_pow cap 0
  · intro i hi
    rw [(with_capacity_fields cap f).1, List.length_replicate] at hi
    rw [(with_capacity_fields cap f).1, listGetD_replicate, if_pos hi]
    exact trivial

theorem fresh_inv (cap : Nat) (f : K → Nat) :
    Inv (HashMap.with_capacity_and_hasher cap f (V := V)) := by
  refine ⟨fresh_tableInv cap f, ?_⟩
  rw [(with_capacity_fields cap f).2.2, mapEntriesKV,
    (with_capacity_fields cap f).1]
  rw [List.map_replicate]
  rw [show Entry.entryKV (Entry.Empty : Entry K V) = [] from rfl]
  induction HashMap.grow cap 1 with
  | zero => rfl
  | succ n ih =>
    rw [List.replicate_succ, List.flatten_cons, List.length_append, ← ih]
    rfl

theorem inv_applyOp (m : HashMap K V) (op : Op K V) (hI : Inv m) :
    Inv (applyOp m op) := by
  cases op with
  | insert k v => exact inv_insert m k v hI
  | remove k =>
    show Inv (m.remove k).1
    rw [HashMap.remove]
    simp only
    rw [remove_entry_id m k hI.1]
    exact hI

theorem applyOp_remove_id (m : HashMap K V) (k : K) (hT : TableInv m) :
    applyOp m (Op.remove k) = m := by
  show (m.remove k).1 = m
  rw [HashMap.remove]
  simp only
  rw [remove_entry_id m k hT]

theorem reachable_inv (m : HashMap K V) (hR : Reachable m) : Inv m := by
  obtain ⟨cap, f, ops, rfl⟩ := hR
  rw [runOps]
  suffices h : ∀ (ops : List (Op K V)) (m0 : HashMap K V), Inv m0 →
      Inv (ops.foldl applyOp m0) by
    exact h ops _ (fresh_inv cap f)
  intro ops
  induction ops with
  | nil => intro m0 h; exact h
  | cons op rest ih => intro m0 h; exact ih _ (inv_applyOp m0 op h)

theorem reachable_insert (m : HashMap K V) (k : K) (v : V)
    (hR : Reachable m) : Reachable (m.insert k v).1 := by
  obtain ⟨cap, f, ops, rfl⟩ := hR
  refine ⟨cap, f, ops ++ [Op.insert k v], ?_⟩
  rw [runOps, runOps, List.foldl_append]
  rfl

theorem fresh_get_none (cap : Nat) (f : K → Nat) (k : K) :
    (HashMap.with_capacity_and_hasher cap f (V := V)).get_key_value k = none := by
  rw [get_key_value_eq, (with_capacity_fields cap f).1, listGetD_replicate,
    ite_self]

theorem insertRun_aux (ps : List (K × V)) :
    ∀ (m : HashMap K V) (s : Finset K), Inv m →
      (∀ k, (m.get_key_value k).isSome = true ↔ k ∈ s) →
      m.len = s.card →
      (runOps m (ps.map (fun p => Op.insert p.1 p.2))).len
        = (s ∪ (ps.map Prod.fst).toFinset).card := by
  induction ps with
  | nil =>
    intro m s _ _ hlen
    simpa [runOps] using hlen
  | cons p rest ih =>
    intro m s hI hmem hlen
    obtain ⟨k0, v0⟩ := p
    rw [List.map_cons]
    rw [show runOps m (Op.insert k0 v0 :: rest.map (fun p => Op.insert p.1 p.2))
      = runOps (m.insert k0 v0).1 (rest.map (fun p => Op.insert p.1 p.2))
      from rfl]
    have hT := hI.1
    obtain ⟨hT', hf', hret, hself, hother, hlen', -⟩ := insert_spec m k0 v0 hT
    have hI' := inv_insert m k0 v0 hI
    have hmem' : ∀ k, ((m.insert k0 v0).1.get_key_value k).isSome = true ↔
        k ∈ insert k0 s := by
      intro k
      by_cases hk : k = k0
      · subst hk
        rw [hself]
        simp
      · rw [hother k hk]
        rw [hmem k]
        simp [hk]
    by_cases hk0 : k0 ∈ s
    · have hsome : (m.get_key_value k0).isSome = true := (hmem k0).mpr hk0
      have hretN : (m.insert k0 v0).2.isNone = false := by
        rw [hret]
        cases hg : m.get_key_value k0 with
        | none => rw [hg] at hsome; simp at hsome
        | some q => simp
      have hlen2 : (m.insert k0 v0).1.len = (insert k0 s).card := by
        rw [hlen', hretN]
        simp [hlen, Finset.insert_eq_self.mpr hk0]
      have hfin := ih (m.insert k0 v0).1 (insert k0 s) hI' hmem' hlen2
      rw [hfin]
      congr 1
      rw [List.map_cons, List.toFinset_cons]
      rw [Finset.union_insert, Finset.insert_union]
    · have hnone : m.get_key_value k0 = none := by
        cases hg : m.get_key_value k0 with
        | none => rfl
        | some q =>
          exfalso
          exact hk0 ((hmem k0).mp (by rw [hg]; rfl))
      have hretN : (m.insert k0 v0).2.isNone = true := by
        rw [hret, hnone]
        rfl
      have hlen2 : (m.insert k0 v0).1.len = (insert k0 s).card := by
        rw [hlen', hretN]
        simp [hlen, Finset.card_insert_of_not_mem hk0]
      have hfin := ih (m.insert k0 v0).1 (insert k0 s) hI' hmem' hlen2
      rw [hfin]
      congr 1
      rw [List.map_cons, List.toFinset_cons]
      rw [Finset.union_insert, Finset.insert_union]

theorem runInserts_len (cap : Nat) (f : K → Nat) (ps : List (K × V)) :
    (runOps (HashMap.with_capacity_and_hasher cap f)
        (ps.map (fun p => Op.insert p.1 p.2))).len
      = (ps.map Prod.fst).dedup.length := by
  have h := insertRun_aux ps (HashMap.with_capacity_and_hasher cap f) ∅
    (fresh_inv cap f)
    (fun k => by rw [fresh_get_none]; simp)
    (by rw [(with_capacity_fields cap f).2.2]; simp)
  rw [h, Finset.empty_union, List.card_toFinset]

theorem listGetD_ge {α : Type} (l : List α) (i : Nat) (d : α)
    (h : l.length ≤ i) : l.getD i d = d := by
  induction l generalizing i with
  | nil => rfl
  | cons x xs ih =>
    cases i with
    | zero => simp at h
    | succ j => exact ih j (by simpa using h)

theorem slots_empty_or_tree (m : HashMap K V) (hT : TableInv m) (i : Nat) :
    m.table.getD i Entry.Empty = Entry.Empty ∨
      ∃ t, m.table.getD i Entry.Empty = Entry.TreeEntry t ∧ t ≠ AvlTree.leaf := by
  by_cases hi : i < m.table.length
  · have hs := hT.slots i hi
    cases hslot : m.table.getD i Entry.Empty with
    | ListEntry _ => rw [hslot] at hs; simp [SlotOk] at hs
    | Empty => exact Or.inl rfl
    | TreeEntry t =>
      rw [hslot] at hs
      exact Or.inr ⟨t, rfl, hs.1⟩
  · exact Or.inl (listGetD_ge _ _ _ (by omega))

theorem resize_len (m : HashMap K V) :
    m.resize.table.length = 2 * m.table.length := by
  rw [resize_eq, (reinsertList_fields _ _).1]
  rw [show ({ m with table := (List.replicate (m.table.length <<< 1)
      Entry.Empty) } : HashMap K V).table
    = List.replicate (m.table.length <<< 1) Entry.Empty from rfl]
  rw [List.length_replicate, Nat.shiftLeft_eq, Nat.pow_one]
  omega

theorem insert_capacity (m : HashMap K V) (k : K) (v : V) :
    (m.insert k v).1.table.length =
      (if 3 * m.table.length / 4 ≤
          (if (m.insert k v).2.isNone then m.len + 1 else m.len)
       then 2 * m.table.length else m.table.length) := by
  have hmtab : (insertMid m k v).table.length = m.table.length := by
    rw [mid_table]
    exact (insert_into_table_fields m k v).1
  rw [insert_eq]
  by_cases hcond :
      (insertMid m k v).len ≥ 3 * (insertMid m k v).table.length / 4
  · rw [if_pos hcond]
    rw [resize_len, hmtab]
    rw [if_pos ?hc]
    case hc =>
      rw [← mid_len m k v, ← hmtab]
      exact hcond
  · rw [if_neg hcond]
    rw [hmtab]
    rw [if_neg ?hc]
    case hc =>
      rw [← mid_len m k v, ← hmtab]
      exact hcond

/-! ### Claims -/

/-- C1: the spec and the map's own tests require that `remove(k)` after
`insert(k, v)` returns the stored value and that a subsequent `get(k)` misses.
The code violates this: `Node::remove_entry` is stubbed to `(None, false)`, so
removal from a tree bucket (and every occupied slot is a tree bucket) always
reports absence and leaves the entry in place.  Evaluated at the failing
input: a fresh capacity-4 map with identity hashing, `insert(1, 2)` then
`remove_entry(1)` returns `none` and `get_key_value(1)` still finds `(1, 2)`. -/
theorem c1_remove_after_insert_stubbed :
    ((((HashMap.with_capacity_and_hasher 4 (fun n : Nat => n) (V := Nat)).insert
        1 2).1.remove 1).2 = none) ∧
    ((((HashMap.with_capacity_and_hasher 4 (fun n : Nat => n) (V := Nat)).insert
        1 2).1.remove 1).1.get_key_value 1 = some (1, 2)) := by
  constructor <;>
    simp [HashMap.with_capacity_and_hasher, HashMap.grow, HashMap.insert,
      HashMap.insert_into_table, HashMap.hash, HashMap.hash_index,
      HashMap.remove, HashMap.remove_entry, HashMap.get_key_value,
      AvlTree.insert, AvlTree.get_key_value, AvlTree.remove_entry,
      nodeRemoveEntry, AvlTree.is_empty, AvlTree.newNode, HashMap.resize,
      HashMap.reinsertList, AvlTree.intoIter, addLeft, drainStack,
      LinkedList.intoIter]

/-- C2 counterexample: the claim says a slot becomes Chained (a linked-list
bucket) on the first insertion into that slot.  In the code the `Empty` arm of
`insert_into_table` constructs an `AvlTree` directly, so after the first
insertion the slot is a `TreeEntry`, not a `ListEntry`: evaluated on a fresh
capacity-4 map with identity hashing after `insert(0, 0)`. -/
theorem c2_first_insert_not_chained :
    ((((HashMap.with_capacity_and_hasher 4 (fun n : Nat => n) (V := Nat)).insert
        0 0).1.table.getD 0 Entry.Empty).isList = false) ∧
    ((((HashMap.with_capacity_and_hasher 4 (fun n : Nat => n) (V := Nat)).insert
        0 0).1.table.getD 0 Entry.Empty).isTree = true) := by
  constructor <;>
    simp [HashMap.with_capacity_and_hasher, HashMap.grow, HashMap.insert,
      HashMap.insert_into_table, HashMap.hash, HashMap.hash_index,
      AvlTree.insert, AvlTree.newNode, HashMap.resize, HashMap.reinsertList,
      AvlTree.intoIter, addLeft, drainStack, LinkedList.intoIter,
      Entry.isList, Entry.isTree]

/-- C2 (amended): a slot is created `Empty` and becomes a Search (tree) bucket
directly on the first insertion into that slot; no reachable state has a
Chained slot, so the Chained state, the Chained-to-Search promotion and any
Search-to-Chained transition never occur; in every reachable state each slot
is either `Empty` or a nonempty tree. -/
theorem c2_slot_state_machine (m : HashMap K V) (cap : Nat) (f : K → Nat)
    (hR : Reachable m) :
    (∀ i, (HashMap.with_capacity_and_hasher cap f (V := V)).table.getD i
      Entry.Empty = Entry.Empty) ∧
    (∀ (k : K) (v : V),
      m.table.getD (slotIdx m k) Entry.Empty = Entry.Empty →
      (m.insert_into_table k v).1.table.getD (slotIdx m k) Entry.Empty
        = Entry.TreeEntry ((AvlTree.leaf : AvlTree K V).insert (m.hash k) k v).1) ∧
    (∀ i, m.table.getD i Entry.Empty = Entry.Empty ∨
      ∃ t, m.table.getD i Entry.Empty = Entry.TreeEntry t ∧ t ≠ AvlTree.leaf) := by
  have hT := (reachable_inv m hR).1
  refine ⟨?_, ?_, fun i => slots_empty_or_tree m hT i⟩
  · intro i
    rw [(with_capacity_fields cap f).1, listGetD_replicate, ite_self]
  · intro k v hslot
    rw [iit_eq_of_empty m k v hslot]
    exact listGetD_set_self _ _ _ _ (hash_index_lt m _ hT.cap_pos)

/-- C2 witness: the amended slot state machine at a concrete reachable map
(capacity hint 1, identity hashing, one insertion). -/
theorem c2_slot_state_machine_witness :
    (∀ i, (HashMap.with_capacity_and_hasher 1 (fun n : Nat => n)
      (V := Nat)).table.getD i Entry.Empty = Entry.Empty) ∧
    (∀ (k : Nat) (v : Nat),
      (runOps (HashMap.with_capacity_and_hasher 1 (fun n : Nat => n)
          (V := Nat)) [Op.insert 0 0]).table.getD
        (slotIdx (runOps (HashMap.with_capacity_and_hasher 1
          (fun n : Nat => n) (V := Nat)) [Op.insert 0 0]) k) Entry.Empty
          = Entry.Empty →
      ((runOps (HashMap.with_capacity_and_hasher 1 (fun n : Nat => n)
          (V := Nat)) [Op.insert 0 0]).insert_into_table k v).1.table.getD
        (slotIdx (runOps (HashMap.with_capacity_and_hasher 1
          (fun n : Nat => n) (V := Nat)) [Op.insert 0 0]) k) Entry.Empty
        = Entry.TreeEntry ((AvlTree.leaf : AvlTree Nat Nat).insert
          ((runOps (HashMap.with_capacity_and_hasher 1 (fun n : Nat => n)
            (V := Nat)) [Op.insert 0 0]).hash k) k v).1) ∧
    (∀ i, (runOps (HashMap.with_capacity_and_hasher 1 (fun n : Nat => n)
        (V := Nat)) [Op.insert 0 0]).table.getD i Entry.Empty = Entry.Empty ∨
      ∃ t, (runOps (HashMap.with_capacity_and_hasher 1 (fun n : Nat => n)
        (V := Nat)) [Op.insert 0 0]).table.getD i Entry.Empty
          = Entry.TreeEntry t ∧ t ≠ AvlTree.leaf) :=
  c2_slot_state_machine
    (runOps (HashMap.with_capacity_and_hasher 1 (fun n : Nat => n) (V := Nat))
      [Op.insert 0 0]) 1 (fun n : Nat => n)
    ⟨1, fun n : Nat => n, [Op.insert 0 0], rfl⟩

/-- C3: the spec requires the AVL balance invariant (subtree heights differ by
at most 1 at every node) after every insertion sequence; the code's
`Node::insert` has rebalancing only as a TODO comment, and the spec itself
notes the stub should not be reproduced.  Evaluated at the failing input:
inserting hashes 0, 1, 2 (keys 0, 1, 2) into an empty tree bucket builds a
right spine whose root has subtree heights 0 and 2. -/
theorem c3_balance_violated :
    AvlTree.balancedb ((((AvlTree.leaf : AvlTree Nat Nat).insert 0 0 10).1.insert
        1 1 11).1.insert 2 2 12).1 = false ∧
      AvlTree.height ((((AvlTree.leaf : AvlTree Nat Nat).insert 0 0 10).1.insert
        1 1 11).1.insert 2 2 12).1 = 3 := by
  constructor <;> rfl

/-- C4 counterexample: the claim says a resize happens at the end of an
insertion exactly when count ≥ 0.75 × capacity.  On a fresh capacity-2 map one
insertion leaves count = 1 with 4 × 1 < 3 × 2 (that is, 1 < 0.75 × 2), yet the
code resizes — its threshold is the float product truncated to an integer,
`(0.75 * 2) as usize = 1` — so the capacity doubles to 4. -/
theorem c4_trigger_counterexample :
    (HashMap.with_capacity_and_hasher 2 (fun n : Nat => n)
      (V := Nat)).table.length = 2 ∧
    ((HashMap.with_capacity_and_hasher 2 (fun n : Nat => n)
      (V := Nat)).insert 0 0).1.len = 1 ∧
    4 * ((HashMap.with_capacity_and_hasher 2 (fun n : Nat => n)
      (V := Nat)).insert 0 0).1.len
      < 3 * (HashMap.with_capacity_and_hasher 2 (fun n : Nat => n)
        (V := Nat)).table.length ∧
    ((HashMap.with_capacity_and_hasher 2 (fun n : Nat => n)
      (V := Nat)).insert 0 0).1.table.length = 4 := by
  refine ⟨?h1, ?h2, ?h3, ?h4⟩
  case h1 =>
    simp [HashMap.with_capacity_and_hasher, HashMap.grow]
  case h3 =>
    have h2 : ((HashMap.with_capacity_and_hasher 2 (fun n : Nat => n)
        (V := Nat)).insert 0 0).1.len = 1 := by
      simp [HashMap.with_capacity_and_hasher, HashMap.grow, HashMap.insert,
        HashMap.insert_into_table, HashMap.hash, HashMap.hash_index,
        AvlTree.insert, AvlTree.newNode, HashMap.resize, HashMap.reinsertList,
        AvlTree.intoIter, addLeft, drainStack, LinkedList.intoIter]
    have h1 : (HashMap.with_capacity_and_hasher 2 (fun n : Nat => n)
        (V := Nat)).table.length = 2 := by
      simp [HashMap.with_capacity_and_hasher, HashMap.grow]
    rw [h1, h2]
    omega
  all_goals
    simp [HashMap.with_capacity_and_hasher, HashMap.grow, HashMap.insert,
      HashMap.insert_into_table, HashMap.hash, HashMap.hash_index,
      AvlTree.insert, AvlTree.newNode, HashMap.resize, HashMap.reinsertList,
      AvlTree.intoIter, addLeft, drainStack, LinkedList.intoIter]

/-- C4 (amended): a resize is triggered synchronously at the end of an
insertion exactly when the updated count is at least `⌊0.75 × capacity⌋`
(`(0.75 * capacity as f64) as usize`, i.e. `3 * capacity / 4` rounded down);
the new capacity is twice the old; and the reinsertions a resize performs go
through `insert_into_table`, which does no load-factor check, so the
reinsertion loop runs to completion at the doubled capacity. -/
theorem c4_resize_policy (m : HashMap K V) (k : K) (v : V)
    (L : List (K × V)) :
    (m.insert k v).1.table.length =
      (if 3 * m.table.length / 4 ≤
          (if (m.insert k v).2.isNone then m.len + 1 else m.len)
       then 2 * m.table.length else m.table.length) ∧
    m.resize.table.length = 2 * m.table.length ∧
    (m.reinsertList L).table.length = m.table.length :=
  ⟨insert_capacity m k v, resize_len m, (reinsertList_fields L m).1⟩

/-- C5: resize transparency on every reachable map: a resize (the only
mechanism behind capacity doublings) leaves the result of `get_key_value`
unchanged for every key, and the multiset of stored (key, value) entries is
preserved exactly — nothing dropped, nothing duplicated. -/
theorem c5_resize_transparency (m : HashMap K V) (hR : Reachable m) (k : K) :
    m.resize.get_key_value k = m.get_key_value k ∧
      List.Perm (mapEntriesKV m.resize) (mapEntriesKV m) := by
  have hT := (reachable_inv m hR).1
  exact ⟨(resize_spec m hT).2.1 k, resize_entries_perm m hT⟩

/-- C5 witness: resize transparency at a concrete reachable map (one entry
inserted into a capacity-4 map with identity hashing), probed at key 1. -/
theorem c5_resize_transparency_witness :
    (runOps (HashMap.with_capacity_and_hasher 4 (fun n : Nat => n) (V := Nat))
        [Op.insert 1 2]).resize.get_key_value 1
      = (runOps (HashMap.with_capacity_and_hasher 4 (fun n : Nat => n)
          (V := Nat)) [Op.insert 1 2]).get_key_value 1 ∧
    List.Perm
      (mapEntriesKV (runOps (HashMap.with_capacity_and_hasher 4
        (fun n : Nat => n) (V := Nat)) [Op.insert 1 2]).resize)
      (mapEntriesKV (runOps (HashMap.with_capacity_and_hasher 4
        (fun n : Nat => n) (V := Nat)) [Op.insert 1 2])) :=
  c5_resize_transparency _ ⟨4, fun n : Nat => n, [Op.insert 1 2], rfl⟩ 1

/-- C6: on every reachable map, `insert(k, v)` followed by `get(k)` yields
`v`; a second `insert(k, v2)` returns the previous value `v` (found by full
key equality — the hash function is arbitrary here, so colliding keys are
covered) and `get(k)` then yields `v2`. -/
theorem c6_insert_get_replace (m : HashMap K V) (hR : Reachable m) (k : K)
    (v v2 : V) :
    (m.insert k v).1.get k = some v ∧
      ((m.insert k v).1.insert k v2).2 = some v ∧
      ((m.insert k v).1.insert k v2).1.get k = some v2 := by
  have hT := (reachable_inv m hR).1
  obtain ⟨-, -, -, hself, -, -, -⟩ := insert_spec m k v hT
  have hR' := reachable_insert m k v hR
  have hT' := (reachable_inv _ hR').1
  obtain ⟨-, -, hret2, hself2, -, -, -⟩ := insert_spec (m.insert k v).1 k v2 hT'
  refine ⟨?_, ?_, ?_⟩
  · rw [HashMap.get, hself]
    rfl
  · rw [hret2, hself]
    rfl
  · rw [HashMap.get, hself2]
    rfl

/-- C6 witness: insert-get-replace at a concrete reachable map (the fresh
capacity-2 map with identity hashing), key 3, values 10 and 20. -/
theorem c6_insert_get_replace_witness :
    ((HashMap.with_capacity_and_hasher 2 (fun n : Nat => n)
        (V := Nat)).insert 3 10).1.get 3 = some 10 ∧
      (((HashMap.with_capacity_and_hasher 2 (fun n : Nat => n)
        (V := Nat)).insert 3 10).1.insert 3 20).2 = some 10 ∧
      (((HashMap.with_capacity_and_hasher 2 (fun n : Nat => n)
        (V := Nat)).insert 3 10).1.insert 3 20).1.get 3 = some 20 :=
  c6_insert_get_replace _ ⟨2, fun n : Nat => n, [], rfl⟩ 3 10 20

/-- C7: on every reachable map the stored count equals the total number of
entries across all slots; and for a sequence consisting only of inserts from a
fresh map, `len()` equals the number of distinct keys inserted. -/
theorem c7_count_invariant (m : HashMap K V) (hR : Reachable m) (cap : Nat)
    (f : K → Nat) (ps : List (K × V)) :
    m.len = (mapEntriesKV m).length ∧
      (runOps (HashMap.with_capacity_and_hasher cap f)
          (ps.map (fun p => Op.insert p.1 p.2))).len
        = (ps.map Prod.fst).dedup.length :=
  ⟨(reachable_inv m hR).2, runInserts_len cap f ps⟩

/-- C7 witness: the count invariant at a concrete reachable map and a
concrete insert-only sequence with one repeated key. -/
theorem c7_count_invariant_witness :
    (runOps (HashMap.with_capacity_and_hasher 4 (fun n : Nat => n) (V := Nat))
        [Op.insert 1 2]).len
      = (mapEntriesKV (runOps (HashMap.with_capacity_and_hasher 4
          (fun n : Nat => n) (V := Nat)) [Op.insert 1 2])).length ∧
      (runOps (HashMap.with_capacity_and_hasher 4 (fun n : Nat => n)
          (V := Nat))
          (([(1, 2), (1, 3), (5, 6)] : List (Nat × Nat)).map
            (fun p => Op.insert p.1 p.2))).len
        = (([(1, 2), (1, 3), (5, 6)] : List (Nat × Nat)).map
            Prod.fst).dedup.length :=
  c7_count_invariant _ ⟨4, fun n : Nat => n, [Op.insert 1 2], rfl⟩ 4
    (fun n : Nat => n) [(1, 2), (1, 3), (5, 6)]

/-- C8: `with_capacity_and_hasher(n, s)` allocates the smallest power of two
at least `n` (minimum 1) of `Empty` slots with count zero; on every reachable
map the capacity is still a power of two (hence ≥ 1); and the slot index of a
hash is `hash & (capacity − 1)`. -/
theorem c8_capacity_invariant (n : Nat) (f : K → Nat) (m : HashMap K V)
    (hR : Reachable m) (h : Nat) :
    (∃ j, (HashMap.with_capacity_and_hasher n f (V := V)).table.length
      = 2 ^ j) ∧
    n ≤ (HashMap.with_capacity_and_hasher n f (V := V)).table.length ∧
    (∀ c, (∃ j, c = 2 ^ j) → n ≤ c →
      (HashMap.with_capacity_and_hasher n f (V := V)).table.length ≤ c) ∧
    (∀ i, (HashMap.with_capacity_and_hasher n f (V := V)).table.getD i
      Entry.Empty = Entry.Empty) ∧
    (HashMap.with_capacity_and_hasher n f (V := V)).len = 0 ∧
    (∃ j, m.table.length = 2 ^ j) ∧
    m.hash_index h = h &&& (m.table.length - 1) := by
  have hlen : (HashMap.with_capacity_and_hasher n f (V := V)).table.length
      = HashMap.grow n 1 := by
    rw [(with_capacity_fields n f).1, List.length_replicate]
  refine ⟨?_, ?_, ?_, ?_, (with_capacity_fields n f).2.2,
    (reachable_inv m hR).1.pow, rfl⟩
  · rw [hlen]
    exact grow_pow n 0
  · rw [hlen]
    exact grow_ge n 1 (by omega)
  · intro c hc hnc
    obtain ⟨jc, rfl⟩ := hc
    rw [hlen]
    exact grow_min n 0 jc (Nat.zero_le jc) hnc
  · intro i
    rw [(with_capacity_fields n f).1, listGetD_replicate, ite_self]

/-- C8 witness: the capacity invariant at hint 5 (rounded up to 8) and a
concrete reachable map, hash 11. -/
theorem c8_capacity_invariant_witness :
    (∃ j, (HashMap.with_capacity_and_hasher 5 (fun n : Nat => n)
      (V := Nat)).table.length = 2 ^ j) ∧
    5 ≤ (HashMap.with_capacity_and_hasher 5 (fun n : Nat => n)
      (V := Nat)).table.length ∧
    (∀ c, (∃ j, c = 2 ^ j) → 5 ≤ c →
      (HashMap.with_capacity_and_hasher 5 (fun n : Nat => n)
        (V := Nat)).table.length ≤ c) ∧
    (∀ i, (HashMap.with_capacity_and_hasher 5 (fun n : Nat => n)
      (V := Nat)).table.getD i Entry.Empty = Entry.Empty) ∧
    (HashMap.with_capacity_and_hasher 5 (fun n : Nat => n)
      (V := Nat)).len = 0 ∧
    (∃ j, (runOps (HashMap.with_capacity_and_hasher 1 (fun n : Nat => n)
      (V := Nat)) [Op.insert 0 0]).table.length = 2 ^ j) ∧
    (runOps (HashMap.with_capacity_and_hasher 1 (fun n : Nat => n)
        (V := Nat)) [Op.insert 0 0]).hash_index 11
      = 11 &&& ((runOps (HashMap.with_capacity_and_hasher 1
        (fun n : Nat => n) (V := Nat)) [Op.insert 0 0]).table.length - 1) :=
  c8_capacity_invariant 5 (fun n : Nat => n) _
    ⟨1, fun n : Nat => n, [Op.insert 0 0], rfl⟩ 11

/-- C9: on every reachable map, `remove(k)` for a key that is not present
returns `none` and leaves the map unchanged — in particular `len()` does not
change.  (With tree removal stubbed, the code in fact never changes the map on
any `remove`.) -/
theorem c9_remove_absent (m : HashMap K V) (hR : Reachable m) (k : K)
    (hk : m.contains_key k = false) :
    (m.remove k).2 = none ∧ (m.remove k).1 = m ∧ (m.remove k).1.len = m.len := by
  have hT := (reachable_inv m hR).1
  have hid := remove_entry_id m k hT
  refine ⟨?_, ?_, ?_⟩ <;> simp [HashMap.remove, hid]

/-- C9 witness: removing the absent key 0 from the fresh capacity-1 map. -/
theorem c9_remove_absent_witness :
    ((HashMap.with_capacity_and_hasher 1 (fun n : Nat => n)
      (V := Nat)).remove 0).2 = none ∧
    ((HashMap.with_capacity_and_hasher 1 (fun n : Nat => n)
      (V := Nat)).remove 0).1
      = HashMap.with_capacity_and_hasher 1 (fun n : Nat => n) (V := Nat) ∧
    ((HashMap.with_capacity_and_hasher 1 (fun n : Nat => n)
      (V := Nat)).remove 0).1.len
      = (HashMap.with_capacity_and_hasher 1 (fun n : Nat => n)
        (V := Nat)).len :=
  c9_remove_absent
    (HashMap.with_capacity_and_hasher 1 (fun n : Nat => n) (V := Nat))
    ⟨1, fun n : Nat => n, [], rfl⟩ 0
    (by simp [HashMap.contains_key, fresh_get_none])

/-- C10: in every reachable state, no slot is a `ListEntry` (the map never
constructs a chained-list bucket), and the only transition out of an `Empty`
slot constructs a `TreeEntry` holding a fresh one-node AVL tree. -/
theorem c10_no_list_slots (m : HashMap K V) (hR : Reachable m) :
    (∀ i, (m.table.getD i Entry.Empty).isList = false) ∧
    (∀ (k : K) (v : V),
      m.table.getD (slotIdx m k) Entry.Empty = Entry.Empty →
      ∃ t, (m.insert_into_table k v).1.table.getD (slotIdx m k) Entry.Empty
        = Entry.TreeEntry t) := by
  have hT := (reachable_inv m hR).1
  constructor
  · intro i
    rcases slots_empty_or_tree m hT i with he | ⟨t, he, -⟩ <;>
      rw [he] <;> rfl
  · intro k v hslot
    refine ⟨((AvlTree.leaf : AvlTree K V).insert (m.hash k) k v).1, ?_⟩
    rw [iit_eq_of_empty m k v hslot]
    exact listGetD_set_self _ _ _ _ (hash_index_lt m _ hT.cap_pos)

/-- C10 witness: the no-chained-slot invariant at a concrete reachable map
(capacity 4, identity hashing, one insertion). -/
theorem c10_no_list_slots_witness :
    (∀ i, ((runOps (HashMap.with_capacity_and_hasher 4 (fun n : Nat => n)
      (V := Nat)) [Op.insert 1 2]).table.getD i Entry.Empty).isList
        = false) ∧
    (∀ (k : Nat) (v : Nat),
      (runOps (HashMap.with_capacity_and_hasher 4 (fun n : Nat => n)
          (V := Nat)) [Op.insert 1 2]).table.getD
        (slotIdx (runOps (HashMap.with_capacity_and_hasher 4
          (fun n : Nat => n) (V := Nat)) [Op.insert 1 2]) k) Entry.Empty
          = Entry.Empty →
      ∃ t, ((runOps (HashMap.with_capacity_and_hasher 4 (fun n : Nat => n)
          (V := Nat)) [Op.insert 1 2]).insert_into_table k v).1.table.getD
        (slotIdx (runOps (HashMap.with_capacity_and_hasher 4
          (fun n : Nat => n) (V := Nat)) [Op.insert 1 2]) k) Entry.Empty
        = Entry.TreeEntry t) :=
  c10_no_list_slots _ ⟨4, fun n : Nat => n, [Op.insert 1 2], rfl⟩

end Maps
